import Mathlib

/-!
Verification of the aislib AIS library against its specification.

The C++ sources are shallowly embedded: a `BitVector` is a `List Bool`
(MSB-first, matching the byte/bit layout invariants of the source), machine
integers are modelled as `Nat`/`Int` with explicit `% 2 ^ 64` where the source
uses `uint64_t` arithmetic, and fallible operations (C++ exceptions) return
`Option`/sum types.
-/

namespace aislib

/-- 2^64, the modulus of `uint64_t` arithmetic. -/
def two64 : Nat := 2 ^ 64

/-- A bit buffer; bit i of the C++ `BitVector` is element i of the list. -/
abbrev Bits := List Bool

/-- Numeric value of one bit, as used when accumulating reads. -/
def bitVal (b : Bool) : Nat := if b then 1 else 0

/-- Big-endian value of a bit list (first element is the most significant). -/
def natOfBits (l : List Bool) : Nat := l.foldl (fun acc b => 2 * acc + bitVal b) 0

/-- The n bits appended by `BitVector::append_uint`: bit i of the output is
bit (n-1-i) of the value (most significant first). -/
def bitsOfNat (v n : Nat) : List Bool := (List.range n).map (fun i => v.testBit (n - 1 - i))

namespace BitVector

/-- `BitVector::get_bit` (in-range use only; out-of-range callers are guarded
by the `Option` layer of `get_uint`/`get_string`). -/
def get_bit (b : Bits) (i : Nat) : Bool := b.getD i false

/-- The accumulation loop of `BitVector::get_uint`. -/
def readBits (b : Bits) (start n : Nat) : Nat :=
  (List.range n).foldl (fun acc i => 2 * acc + bitVal (get_bit b (start + i))) 0

/-- `BitVector::get_uint` — `none` models the `invalid_argument` /
`out_of_range` exceptions for `bit_count > 64` and range overrun. -/
def get_uint (b : Bits) (start n : Nat) : Option Nat :=
  if 64 < n then none
  else if b.length < start + n then none
  else some (readBits b start n)

/-- Bitwise NOT on a `uint64_t` value. -/
def u64_not (x : Nat) : Nat := two64 - 1 - x

/-- Subtraction of 1 on a `uint64_t` value (wrapping). -/
def u64_pred (x : Nat) : Nat := (x + (two64 - 1)) % two64

/-- The sign-extension mask `~((1 << bit_count) - 1)` of `BitVector::get_int`.
For `bit_count = 64` the source shifts a `uint64_t` by its full width —
undefined behaviour in C++; on the mainstream targets (x86-64, ARM64) the
shift count is masked to its low 6 bits, so `1 << 64` evaluates as
`1 << 0 = 1` and the mask becomes `~0`. That masked-shift semantics is
modelled here (`n % 64` as the effective shift count). -/
def sign_mask (n : Nat) : Nat := u64_not (u64_pred (2 ^ (n % 64) % two64))

/-- `static_cast<int64_t>` of a `uint64_t` value. -/
def toInt64 (x : Nat) : Int := if x < 2 ^ 63 then (x : Int) else (x : Int) - (two64 : Int)

/-- The sign-extension step of `BitVector::get_int`. -/
def sign_extend (value : Nat) (n : Nat) : Int :=
  if 0 < n ∧ value.testBit (n - 1) then toInt64 (value ||| sign_mask n) else toInt64 value

/-- `BitVector::get_int`. -/
def get_int (b : Bits) (start n : Nat) : Option Int :=
  (get_uint b start n).map (fun v => sign_extend v n)

/-- `BitVector::append_bit`. -/
def append_bit (b : Bits) (bit : Bool) : Bits := b ++ [bit]

/-- `BitVector::append_uint`; the value is a `uint64_t`, hence `% two64`.
(The source throws for `bit_count > 64`; all uses here have `n ≤ 64`.) -/
def append_uint (b : Bits) (v : Nat) (n : Nat) : Bits := b ++ bitsOfNat (v % two64) n

/-- `BitVector::append_int`: cast to `uint64_t` (two's complement) and append. -/
def append_int (b : Bits) (v : Int) (n : Nat) : Bits :=
  append_uint b (v.emod (two64 : Int)).toNat n

@[simp] theorem length_bitsOfNat (v n : Nat) : (bitsOfNat v n).length = n := by
  simp [bitsOfNat]

theorem bitsOfNat_succ (v n : Nat) :
    bitsOfNat v (n + 1) = v.testBit n :: bitsOfNat v n := by
  simp only [bitsOfNat, List.range_succ_eq_map, List.map_cons, List.map_map]
  refine congrArg₂ _ (by simp) ?_
  refine List.map_congr_left (fun i _ => ?_)
  simp only [Function.comp]
  have h : n - (i + 1) = n - 1 - i := by omega
  simp [h]

theorem natOfBits_aux (a : Nat) (l : List Bool) :
    l.foldl (fun acc b => 2 * acc + bitVal b) a = a * 2 ^ l.length + natOfBits l := by
  induction l generalizing a with
  | nil => simp [natOfBits]
  | cons x xs ih =>
    simp only [List.foldl_cons, natOfBits, List.length_cons]
    rw [ih, ih (2 * 0 + bitVal x)]
    ring

theorem natOfBits_cons (x : Bool) (l : List Bool) :
    natOfBits (x :: l) = bitVal x * 2 ^ l.length + natOfBits l := by
  have h := natOfBits_aux (2 * 0 + bitVal x) l
  simpa [natOfBits] using h

theorem natOfBits_concat (l : List Bool) (x : Bool) :
    natOfBits (l ++ [x]) = 2 * natOfBits l + bitVal x := by
  simp [natOfBits, List.foldl_append]

theorem bitVal_testBit (v n : Nat) : bitVal (v.testBit n) = v / 2 ^ n % 2 := by
  rw [Nat.testBit_to_div_mod]
  rcases Nat.mod_two_eq_zero_or_one (v / 2 ^ n) with h | h <;> simp [bitVal, h]

theorem natOfBits_bitsOfNat (v n : Nat) : natOfBits (bitsOfNat v n) = v % 2 ^ n := by
  induction n with
  | zero => simp [bitsOfNat, natOfBits, Nat.mod_one]
  | succ n ih =>
    rw [bitsOfNat_succ, natOfBits_cons, length_bitsOfNat, ih, bitVal_testBit,
      pow_succ, Nat.mod_mul]
    ring

theorem readBits_succ (b : Bits) (s n : Nat) :
    readBits b s (n + 1) = 2 * readBits b s n + bitVal (get_bit b (s + n)) := by
  simp [readBits, List.range_succ]

theorem readBits_append (b l : Bits) (n : Nat) (h : n ≤ l.length) :
    readBits (b ++ l) b.length n = natOfBits (l.take n) := by
  induction n with
  | zero => simp [readBits, natOfBits]
  | succ n ih =>
    have hn : n < l.length := by omega
    rw [readBits_succ, ih (by omega), List.take_succ]
    have h1 : l[n]? = some l[n] := List.getElem?_eq_getElem hn
    rw [h1]
    have h2 : get_bit (b ++ l) (b.length + n) = l[n] := by
      rw [get_bit, List.getD_eq_getElem?_getD, List.getElem?_append_right (by omega)]
      simp [Nat.add_sub_cancel_left, List.getElem?_eq_getElem hn]
    rw [h2]
    simp only [Option.toList_some]
    rw [natOfBits_concat]

theorem readBits_append_full (b l : Bits) :
    readBits (b ++ l) b.length l.length = natOfBits l := by
  rw [readBits_append b l l.length le_rfl, List.take_length]

/-- Reading back an appended unsigned field yields the value modulo 2^n. -/
theorem get_uint_append_mod (b : Bits) (v n : Nat) (h : n ≤ 64) :
    get_uint (append_uint b v n) b.length n = some (v % 2 ^ n) := by
  have hlen : (append_uint b v n).length = b.length + n := by
    simp [append_uint]
  rw [get_uint, if_neg (by omega), if_neg (by omega)]
  have : readBits (append_uint b v n) b.length n =
      natOfBits (bitsOfNat (v % two64) n) := by
    have := readBits_append_full b (bitsOfNat (v % two64) n)
    simpa [append_uint] using this
  rw [this, natOfBits_bitsOfNat, Nat.mod_mod_of_dvd]
  exact pow_dvd_pow 2 h

theorem sign_mask_eq {n : Nat} (h1 : 1 ≤ n) (h2 : n ≤ 63) :
    sign_mask n = two64 - 2 ^ n := by
  have hk1 : 1 ≤ 2 ^ n := Nat.one_le_two_pow
  have hpos : 0 < two64 := by simp [two64]
  unfold sign_mask u64_pred u64_not
  rw [Nat.mod_eq_of_lt (show n < 64 by omega)]
  have hlt : 2 ^ n < two64 := by
    simpa [two64] using Nat.pow_lt_pow_right (by norm_num) (show n < 64 by omega)
  rw [Nat.mod_eq_of_lt hlt]
  have hsum : 2 ^ n + (two64 - 1) = (2 ^ n - 1) + two64 := by omega
  rw [hsum, Nat.add_mod_right, Nat.mod_eq_of_lt (by omega)]
  omega

theorem get_int_append (b : Bits) (w : Int) (n : Nat) (h1 : 1 ≤ n) (h2 : n ≤ 64)
    (hedge : n ≤ 63 ∨ 0 ≤ w)
    (hlo : -(2 ^ (n - 1) : Int) ≤ w) (hhi : w < 2 ^ (n - 1)) :
    get_int (append_int b w n) b.length n = some w := by
  have hpow : (2:Int) ^ (n - 1) * 2 = 2 ^ n := by
    rw [← pow_succ]; congr 1; omega
  have hple : (2:Nat) ^ (n - 1) ≤ 2 ^ 63 := Nat.pow_le_pow_right (by norm_num) (by omega)
  have hpleI : (2:Int) ^ (n - 1) ≤ 2 ^ 63 := by exact_mod_cast hple
  have h2I : ((two64 : Nat) : Int) = 2 ^ 64 := by simp [two64]
  set u : Nat := (w.emod (two64 : Int)).toNat with hu
  have hgu : get_uint (append_uint b u n) b.length n = some (u % 2 ^ n) :=
    get_uint_append_mod b u n h2
  rw [get_int, append_int, ← hu, hgu, Option.map_some']
  rcases le_or_lt 0 w with hw | hw
  · -- non-negative values: no sign extension happens
    have hwlt : w < (two64 : Int) := by
      calc w < 2 ^ (n - 1) := hhi
        _ ≤ 2 ^ 63 := hpleI
        _ < (two64 : Int) := by rw [h2I]; norm_num
    have hmod : w.emod (two64 : Int) = w := Int.emod_eq_of_lt hw hwlt
    have huw : (u : Int) = w := by rw [hu, hmod, Int.toNat_of_nonneg hw]
    have hult : u < 2 ^ (n - 1) := by
      have : (u : Int) < (2 ^ (n - 1) : Nat) := by rw [huw]; exact_mod_cast hhi
      exact_mod_cast this
    have humod : u % 2 ^ n = u := Nat.mod_eq_of_lt (by
      calc u < 2 ^ (n - 1) := hult
        _ ≤ 2 ^ n := Nat.pow_le_pow_right (by norm_num) (by omega))
    rw [humod, sign_extend, if_neg, toInt64, if_pos (by omega), huw]
    rintro ⟨-, htb⟩
    rw [Nat.testBit_lt_two_pow hult] at htb
    exact Bool.false_ne_true htb
  · -- negative values: sign extension reconstructs the value
    have hn63 : n ≤ 63 := by
      rcases hedge with h | h
      · exact h
      · omega
    have hbig : -(two64 : Int) ≤ w := by
      have : -(2 ^ (n - 1) : Int) ≥ -(two64 : Int) := by
        simp only [neg_le_neg_iff, ge_iff_le]
        calc (2:Int) ^ (n - 1) ≤ 2 ^ 63 := hpleI
          _ ≤ (two64 : Int) := by rw [h2I]; norm_num
      omega
    have hmod : w.emod (two64 : Int) = w + (two64 : Int) := by
      have h0 : 0 ≤ w + (two64 : Int) := by omega
      have hlt : w + (two64 : Int) < (two64 : Int) := by omega
      have hstep : (w + (two64 : Int) * 1) % (two64 : Int) = w % (two64 : Int) :=
        Int.add_mul_emod_self_left w ((two64 : Nat) : Int) 1
      rw [mul_one] at hstep
      have hfin : (w + (two64 : Int)) % (two64 : Int) = w + (two64 : Int) :=
        Int.emod_eq_of_lt h0 hlt
      calc w.emod (two64 : Int) = (w + (two64 : Int)) % (two64 : Int) := hstep.symm
        _ = w + (two64 : Int) := hfin
    -- the natural number written into the buffer
    set a : Nat := (w + 2 ^ n).toNat with ha
    have hnn : (0:Int) ≤ w + 2 ^ n := by
      have : (2:Int) ^ (n - 1) ≤ 2 ^ n := by
        calc (2:Int) ^ (n - 1) = 2 ^ (n - 1) * 1 := by ring
          _ ≤ 2 ^ (n - 1) * 2 := by nlinarith [pow_pos (by norm_num : (0:Int) < 2) (n - 1)]
          _ = 2 ^ n := hpow
      omega
    have haI : (a : Int) = w + 2 ^ n := Int.toNat_of_nonneg hnn
    have halo : 2 ^ (n - 1) ≤ a := by
      have : (2 ^ (n - 1) : Int) ≤ (a : Int) := by rw [haI]; omega
      exact_mod_cast this
    have hahi : a < 2 ^ n := by
      have hq : (a : Int) < (2 ^ n : Nat) := by
        rw [haI]; push_cast; omega
      exact_mod_cast hq
    have hnle : (2:Nat) ^ n ≤ two64 := by
      simpa [two64] using Nat.pow_le_pow_right (by norm_num : 1 ≤ 2) h2
    have huval : u = a + (two64 - 2 ^ n) := by
      have hcast : ((a + (two64 - 2 ^ n) : Nat) : Int) = w + (two64 : Int) := by
        push_cast [Nat.cast_sub hnle]
        rw [haI]; ring
      have hval : (u : Int) = w + (two64 : Int) := by
        rw [hu, hmod, Int.toNat_of_nonneg (by omega)]
      exact_mod_cast hval.trans hcast.symm
    have hdvd : 2 ^ n ∣ two64 - 2 ^ n :=
      Nat.dvd_sub' (by simpa [two64] using pow_dvd_pow 2 h2) dvd_rfl
    have humod : u % 2 ^ n = a := by
      have hz : (two64 - 2 ^ n) % 2 ^ n = 0 := Nat.mod_eq_zero_of_dvd hdvd
      rw [huval, Nat.add_mod, hz]
      simp [Nat.mod_eq_of_lt hahi]
    have htb : a.testBit (n - 1) = true := by
      rw [Nat.testBit_to_div_mod]
      have hdiv : a / 2 ^ (n - 1) = 1 := by
        have hx : (2:Nat) ^ n = 2 ^ (n - 1) * 2 := by
          conv_lhs => rw [show n = (n - 1) + 1 by omega]
          rw [pow_succ]
        refine Nat.div_eq_of_lt_le (by omega) (by omega)
      rw [hdiv]
      decide
    rw [humod, sign_extend, if_pos ⟨by omega, htb⟩, sign_mask_eq h1 hn63]
    have hq : two64 - 2 ^ n = 2 ^ n * (2 ^ (64 - n) - 1) := by
      have hmul : (2:Nat) ^ n * 2 ^ (64 - n) = two64 := by
        rw [← pow_add]
        simp only [two64]
        congr 1
        omega
      have hone : 1 ≤ (2:Nat) ^ (64 - n) := Nat.one_le_two_pow
      calc two64 - 2 ^ n = 2 ^ n * 2 ^ (64 - n) - 2 ^ n * 1 := by rw [hmul, mul_one]
        _ = 2 ^ n * (2 ^ (64 - n) - 1) := (Nat.mul_sub_left_distrib _ _ _).symm
    have hor : a ||| (two64 - 2 ^ n) = a + (two64 - 2 ^ n) := by
      rw [hq, Nat.lor_comm, ← Nat.mul_add_lt_is_or hahi]
      ring
    rw [hor, toInt64, if_neg]
    · have hcast2 : ((a + (two64 - 2 ^ n) : Nat) : Int) = w + (two64 : Int) := by
        push_cast [Nat.cast_sub hnle]
        rw [haI]; ring
      rw [hcast2]
      simp
    · push_neg
      have e1 : (2:Nat) ^ n ≤ 2 ^ (n - 1) * 2 := by
        conv_lhs => rw [show n = (n - 1) + 1 by omega]
        rw [pow_succ]
      have e3 : two64 = 2 ^ 63 * 2 := by simp only [two64]; norm_num
      omega

/-- C1 (amended): Bit-buffer typed round-trip. For every width n in [1, 64]
and every value v in [0, 2^n), appending v with append_uint(v, n) and
reading n bits back at the write offset with get_uint returns v; append_int
followed by get_int returns every v in [-2^(n-1), 2^(n-1)) for widths n in
[1, 63], and at width 64 for non-negative v only: for negative v at width
64 the sign-extension mask computation shifts a uint64_t by its full width
(undefined behaviour; mask `~0` under the masked-shift semantics of
mainstream targets), see the counterexample. -/
theorem C1_bit_buffer_typed_roundtrip (b : Bits) (n : Nat) (v : Nat) (w : Int)
    (h1 : 1 ≤ n) (h2 : n ≤ 64) :
    (v < 2 ^ n → get_uint (append_uint b v n) b.length n = some v) ∧
    (n ≤ 63 ∨ 0 ≤ w → -(2 ^ (n - 1) : Int) ≤ w → w < 2 ^ (n - 1) →
      get_int (append_int b w n) b.length n = some w) := by
  constructor
  · intro hv
    rw [get_uint_append_mod b v n h2, Nat.mod_eq_of_lt hv]
  · intro hedge hlo hhi
    exact get_int_append b w n h1 h2 hedge hlo hhi

/-- Witness for C1 at concrete inputs: width 8, values 200 and -5, and a
non-negative 64-bit value. -/
theorem C1_bit_buffer_typed_roundtrip_witness :
    (get_uint (append_uint [] 200 8) 0 8 = some 200 ∧
     get_int (append_int [] (-5) 8) 0 8 = some (-5)) ∧
    get_int (append_int [] 7 64) 0 64 = some 7 := by
  have h := C1_bit_buffer_typed_roundtrip [] 8 200 (-5) (by norm_num) (by norm_num)
  have h64 := C1_bit_buffer_typed_roundtrip [] 64 0 7 (by norm_num) (by norm_num)
  exact ⟨⟨h.1 (by norm_num), h.2 (Or.inl (by norm_num)) (by norm_num) (by norm_num)⟩,
    h64.2 (Or.inr (by norm_num)) (by norm_num) (by norm_num)⟩

set_option maxRecDepth 100000 in
/-- C1 counterexample: at width 64 the signed round trip fails for negative
values. The mask `~((1 << 64) - 1)` shifts a uint64_t by its full width —
undefined behaviour; mainstream targets mask the shift count, making the
mask `~0`, so the stored -5 reads back as -1. -/
theorem C1_counterexample :
    get_int (append_int [] (-5) 64) 0 64 = some (-1) ∧ (-5 : Int) ≠ -1 := by
  exact ⟨by decide, by decide⟩

/-- `BitVector::encode_ascii` — standard ASCII to AIS 6-bit ASCII; characters
outside the alphabet fall through to 0. -/
def encode_ascii (c : Char) : Nat :=
  if c = '@' then 0
  else if 65 ≤ c.toNat ∧ c.toNat ≤ 90 then c.toNat - 64
  else if 91 ≤ c.toNat ∧ c.toNat ≤ 95 then c.toNat - 64
  else if 32 ≤ c.toNat ∧ c.toNat ≤ 63 then c.toNat
  else 0

/-- `BitVector::decode_ascii`. -/
def decode_ascii (v : Nat) : Char :=
  if v = 0 then '@'
  else if 1 ≤ v ∧ v ≤ 31 then Char.ofNat (v + 64)
  else if 32 ≤ v ∧ v ≤ 63 then Char.ofNat v
  else '?'

/-- The 6-bit code written for position i by `BitVector::append_string`:
the encoded character, or 32 (space padding) past the end of the string. -/
def char_code (s : String) (i : Nat) : Nat :=
  if i < s.data.length then encode_ascii (s.data.getD i '@') else 32

/-- `BitVector::append_string` — `none` models the `invalid_argument`
exceptions (bit count not a multiple of 6, string too long). -/
def append_string (b : Bits) (s : String) (n : Nat) : Option Bits :=
  if n % 6 ≠ 0 then none
  else if n / 6 < s.data.length then none
  else some ((List.range (n / 6)).foldl (fun acc i => append_uint acc (char_code s i) 6) b)

/-- `BitVector::get_string` — decodes each 6-bit group and suppresses
characters that decode to the null character. (The source's special
branch for bit_count 18 is byte-for-byte identical to the general branch.) -/
def get_string (b : Bits) (start n : Nat) : Option String :=
  if n % 6 ≠ 0 then none
  else if b.length < start + n then none
  else some ⟨((List.range (n / 6)).map
      (fun i => decode_ascii (readBits b (start + i * 6) 6))).filter (fun c => c != '@')⟩

theorem encode_ascii_lt (c : Char) : encode_ascii c < 64 := by
  unfold encode_ascii
  split
  · norm_num
  · split
    · omega
    · split
      · omega
      · split
        · omega
        · norm_num

theorem foldl_append_uint (b : Bits) (f : Nat → Nat) (m : Nat) :
    (List.range m).foldl (fun acc i => append_uint acc (f i) 6) b =
      b ++ (List.range m).flatMap (fun i => bitsOfNat (f i % two64) 6) := by
  induction m generalizing b with
  | zero => simp
  | succ m ih =>
    rw [List.range_succ, List.foldl_append, List.flatMap_append, ih]
    simp [append_uint]

theorem read_group (b : Bits) (vals : List Nat) (i : Nat) (h : i < vals.length) :
    readBits (b ++ vals.flatMap (fun v => bitsOfNat v 6)) (b.length + 6 * i) 6 =
      vals.getD i 0 % 2 ^ 6 := by
  induction vals generalizing b i with
  | nil => simp at h
  | cons v vs ih =>
    cases i with
    | zero =>
      have hflat : (v :: vs).flatMap (fun v => bitsOfNat v 6) =
          bitsOfNat v 6 ++ vs.flatMap (fun v => bitsOfNat v 6) := by simp
      rw [hflat, Nat.mul_zero, Nat.add_zero,
        readBits_append b _ 6 (by simp),
        List.take_left' (length_bitsOfNat v 6), natOfBits_bitsOfNat]
      simp
    | succ i =>
      have hflat : (v :: vs).flatMap (fun v => bitsOfNat v 6) =
          bitsOfNat v 6 ++ vs.flatMap (fun v => bitsOfNat v 6) := by simp
      have harr : b.length + 6 * (i + 1) = (b ++ bitsOfNat v 6).length + 6 * i := by
        simp; omega
      rw [hflat, ← List.append_assoc, harr]
      have := ih (b ++ bitsOfNat v 6) i (by simpa using Nat.lt_of_succ_lt_succ h)
      simpa using this

theorem char_code_lt (s : String) (i : Nat) : char_code s i < 64 := by
  unfold char_code
  split
  · exact encode_ascii_lt _
  · norm_num

theorem decode_encode_zero (c : Char) (h : encode_ascii c = 0) :
    decode_ascii (encode_ascii c) = '@' := by
  rw [h]; rfl

theorem decode_encode_eq (c : Char) (h : encode_ascii c ≠ 0) :
    decode_ascii (encode_ascii c) = c ∧ c ≠ '@' := by
  unfold encode_ascii at h ⊢
  by_cases hAt : c = '@'
  · rw [if_pos hAt] at h; exact absurd rfl h
  · rw [if_neg hAt] at h ⊢
    by_cases h1 : 65 ≤ c.toNat ∧ c.toNat ≤ 90
    · rw [if_pos h1] at h ⊢
      refine ⟨?_, hAt⟩
      rw [decode_ascii, if_neg (by omega), if_pos (by omega)]
      have hx : c.toNat - 64 + 64 = c.toNat := by omega
      rw [hx, Char.ofNat_toNat]
    · rw [if_neg h1] at h ⊢
      by_cases h2 : 91 ≤ c.toNat ∧ c.toNat ≤ 95
      · rw [if_pos h2] at h ⊢
        refine ⟨?_, hAt⟩
        rw [decode_ascii, if_neg (by omega), if_pos (by omega)]
        have hx : c.toNat - 64 + 64 = c.toNat := by omega
        rw [hx, Char.ofNat_toNat]
      · rw [if_neg h2] at h ⊢
        by_cases h3 : 32 ≤ c.toNat ∧ c.toNat ≤ 63
        · rw [if_pos h3] at h ⊢
          refine ⟨?_, hAt⟩
          rw [decode_ascii, if_neg (by omega), if_neg (by omega), if_pos h3]
          exact Char.ofNat_toNat c
        · rw [if_neg h3] at h
          exact absurd rfl h

theorem range_map_getD (l : List Char) (d : Char) (f : Char → Char) :
    (List.range l.length).map (fun i => f (l.getD i d)) = l.map f := by
  apply List.ext_getElem
  · simp
  · intro i h1 h2
    have hl : i < l.length := by simpa using h2
    simp only [List.getElem_map, List.getElem_range]
    congr 1
    rw [List.getD_eq_getElem?_getD, List.getElem?_eq_getElem hl]
    rfl

theorem filter_decode_encode (l : List Char) :
    (l.map (fun c => decode_ascii (encode_ascii c))).filter (fun c => c != '@') =
      l.filter (fun c => encode_ascii c != 0) := by
  induction l with
  | nil => rfl
  | cons c cs ih =>
    by_cases h : encode_ascii c = 0
    · have hz := decode_encode_zero c h
      simp only [List.map_cons, List.filter_cons, hz, h]
      simpa using ih
    · obtain ⟨he, hne⟩ := decode_encode_eq c h
      simp only [List.map_cons, List.filter_cons, he]
      have hb1 : (c != '@') = true := by simpa using hne
      have hb2 : (encode_ascii c != 0) = true := by simpa using h
      rw [hb1, hb2]
      simp [ih]

theorem flat_groups_length (vals : List Nat) :
    (vals.flatMap (fun v => bitsOfNat v 6)).length = 6 * vals.length := by
  induction vals with
  | nil => simp
  | cons v vs ih => simp [ih]; ring

theorem flatMap_range_map (m : Nat) (f : Nat → Nat) :
    (List.range m).flatMap (fun i => bitsOfNat (f i) 6) =
      ((List.range m).map f).flatMap (fun v => bitsOfNat v 6) := by
  induction m with
  | zero => rfl
  | succ m ih => simp [List.range_succ, ih]

theorem decode_ascii_space : decode_ascii 32 = ' ' := by decide

/-- C10 (amended): append_string accepts any characters (never failing on
out-of-alphabet input); a write-then-read round trip keeps exactly the
characters whose 6-bit encoding is nonzero — so characters outside the
alphabet AND the in-alphabet character `@` itself vanish, all other
in-alphabet characters are preserved in order, and the unused tail is
returned as spaces. -/
theorem C10_append_string_roundtrip (b : Bits) (s : String) (n : Nat)
    (h6 : n % 6 = 0) (hlen : s.data.length ≤ n / 6) :
    ∃ bs, append_string b s n = some bs ∧
      get_string bs b.length n =
        some ⟨s.data.filter (fun c => encode_ascii c != 0) ++
          List.replicate (n / 6 - s.data.length) ' '⟩ := by
  set m := n / 6 with hm
  have h64lt : (64:Nat) < two64 := by norm_num [two64]
  have hmod_codes : ∀ i, char_code s i % two64 = char_code s i := fun i =>
    Nat.mod_eq_of_lt (lt_trans (char_code_lt s i) h64lt)
  have h6m : 6 * m = n := Nat.mul_div_cancel' (Nat.dvd_of_mod_eq_zero h6)
  have happ : append_string b s n =
      some (b ++ (List.range m).flatMap (fun i => bitsOfNat (char_code s i) 6)) := by
    rw [append_string, if_neg (by omega), if_neg (by omega), foldl_append_uint]
    rw [show (fun i => bitsOfNat (char_code s i % two64) 6) =
        (fun i => bitsOfNat (char_code s i) 6) from
      funext (fun i => by rw [hmod_codes i])]
  set L := (List.range m).flatMap (fun i => bitsOfNat (char_code s i) 6) with hLdef
  have hvals : L = ((List.range m).map (char_code s)).flatMap (fun v => bitsOfNat v 6) := by
    rw [hLdef, flatMap_range_map]
  have hL : L.length = 6 * m := by
    rw [hvals, flat_groups_length]
    simp
  refine ⟨b ++ L, happ, ?_⟩
  rw [get_string, if_neg (by omega), if_neg (by simp [hL]; omega)]
  have hread : ∀ i, i < m → readBits (b ++ L) (b.length + i * 6) 6 = char_code s i := by
    intro i hi
    rw [hvals, Nat.mul_comm i 6]
    have hrg := read_group b ((List.range m).map (char_code s)) i (by simpa using hi)
    rw [hrg]
    have hgd : ((List.range m).map (char_code s)).getD i 0 = char_code s i := by
      rw [List.getD_eq_getElem?_getD, List.getElem?_map, List.getElem?_range hi]
      rfl
    rw [hgd]
    exact Nat.mod_eq_of_lt (char_code_lt s i)
  have hmap1 : ((List.range m).map
      (fun i => decode_ascii (readBits (b ++ L) (b.length + i * 6) 6))) =
      (List.range m).map (fun i => decode_ascii (char_code s i)) :=
    List.map_congr_left (fun i hi => by rw [hread i (List.mem_range.mp hi)])
  rw [hmap1]
  have hm_split : m = s.data.length + (m - s.data.length) := by omega
  rw [show List.range m = List.range (s.data.length + (m - s.data.length)) from by
      rw [← hm_split],
    List.range_add, List.map_append, List.filter_append]
  have hA : List.filter (fun c => c != '@')
      ((List.range s.data.length).map (fun i => decode_ascii (char_code s i))) =
      s.data.filter (fun c => encode_ascii c != 0) := by
    have hmap2 : (List.range s.data.length).map (fun i => decode_ascii (char_code s i)) =
        (List.range s.data.length).map
          (fun i => decode_ascii (encode_ascii (s.data.getD i '@'))) :=
      List.map_congr_left (fun i hi => by
        rw [char_code, if_pos (List.mem_range.mp hi)])
    rw [hmap2, range_map_getD s.data '@' (fun c => decode_ascii (encode_ascii c))]
    exact filter_decode_encode s.data
  have hB : List.filter (fun c => c != '@')
      (((List.range (m - s.data.length)).map (fun x => s.data.length + x)).map
        (fun i => decode_ascii (char_code s i))) =
      List.replicate (m - s.data.length) ' ' := by
    rw [List.map_map]
    have hmap3 : (List.range (m - s.data.length)).map
        ((fun i => decode_ascii (char_code s i)) ∘ (fun x => s.data.length + x)) =
        (List.range (m - s.data.length)).map (fun _ => ' ') :=
      List.map_congr_left (fun i _ => by
        simp only [Function.comp]
        rw [char_code, if_neg (by omega), decode_ascii_space])
    rw [hmap3, List.map_const', List.length_range]
    refine List.filter_eq_self.mpr (fun a ha => ?_)
    rw [List.eq_of_mem_replicate ha]
    simp
  rw [hA, hB]

/-- Armor value of one NMEA payload character, as decoded by the
`BitVector(const std::string&)` constructor; `none` is the
`invalid_argument` throw. -/
def armor_char_val (c : Char) : Option Nat :=
  if 48 ≤ c.toNat ∧ c.toNat ≤ 87 then some (c.toNat - 48)
  else if 96 ≤ c.toNat ∧ c.toNat ≤ 119 then some (c.toNat - 96 + 40)
  else none

/-- The payload-decoding loop of the `BitVector(const std::string&)`
constructor: 6 bits per character, most significant first. -/
def from_nmea_payload_chars : List Char → Option Bits
  | [] => some []
  | c :: cs =>
    match armor_char_val c, from_nmea_payload_chars cs with
    | some v, some rest => some (bitsOfNat v 6 ++ rest)
    | _, _ => none

/-- `BitVector(const std::string& payload)`. -/
def from_nmea_payload (s : String) : Option Bits := from_nmea_payload_chars s.data

/-- One armor output character of `BitVector::to_nmea_payload`. -/
def armor_encode_char (v : Nat) : Char :=
  if v < 40 then Char.ofNat (v + 48) else Char.ofNat (v - 40 + 96)

/-- `BitVector::to_nmea_payload`: every 6 bits (the last group left-padded
with zeros) become one armor character. -/
def to_nmea_payload (b : Bits) : String :=
  ⟨(List.range ((b.length + 5) / 6)).map (fun k =>
    armor_encode_char
      (readBits b (k * 6) (min 6 (b.length - k * 6)) <<< (6 - min 6 (b.length - k * 6))))⟩

end BitVector

namespace NMEAUtils

open BitVector

/-- The XOR loop of `NMEAUtils::calculate_checksum` (uint8 arithmetic). -/
def checksum_fold (l : List Char) : Nat := l.foldl (fun a c => a ^^^ (c.toNat % 256)) 0

/-- `NMEAUtils::calculate_checksum`: XOR of the characters after a leading
`$`/`!` and before the first `*` (or the end). -/
def calculate_checksum (s : String) : Nat :=
  let l := s.data
  let start_pos := if l ≠ [] ∧ (l.headD ' ' = '$' ∨ l.headD ' ' = '!') then 1 else 0
  let end_pos := l.findIdx (fun c => c == '*')
  checksum_fold ((l.take end_pos).drop start_pos)

/-- Value of a hexadecimal digit character. -/
def hex_digit_val (c : Char) : Option Nat :=
  if 48 ≤ c.toNat ∧ c.toNat ≤ 57 then some (c.toNat - 48)
  else if 97 ≤ c.toNat ∧ c.toNat ≤ 102 then some (c.toNat - 87)
  else if 65 ≤ c.toNat ∧ c.toNat ≤ 70 then some (c.toNat - 55)
  else none

/-- Value of a decimal digit character. -/
def dec_digit_val (c : Char) : Option Nat :=
  if 48 ≤ c.toNat ∧ c.toNat ≤ 57 then some (c.toNat - 48)
  else none

/-- Greedy digit accumulation of `std::stoi`. -/
def parse_digits_aux (base : Nat) (dv : Char → Option Nat) : List Char → Nat → Nat
  | [], acc => acc
  | c :: cs, acc =>
    match dv c with
    | some d => parse_digits_aux base dv cs (acc * base + d)
    | none => acc

/-- `std::stoi(s, nullptr, base)`: optional whitespace and sign, then at least
one digit, greedily; out-of-`int`-range values throw (`none`). (The `0x`
prefix special case of base 16 cannot change the value for the two-character
checksum fields it is used on here.) -/
def cpp_stoi_core (base : Nat) (dv : Char → Option Nat) (l : List Char) : Option Int :=
  let l1 := l.dropWhile (fun c => c.isWhitespace)
  let signed : Bool × List Char :=
    match l1 with
    | '+' :: rest => (false, rest)
    | '-' :: rest => (true, rest)
    | _ => (false, l1)
  match signed.2 with
  | [] => none
  | c :: _ =>
    match dv c with
    | none => none
    | some _ =>
      let v : Int := (parse_digits_aux base dv signed.2 0 : Nat)
      let sv := if signed.1 then -v else v
      if sv < -2147483648 ∨ 2147483647 < sv then none else some sv

/-- `std::stoi` in base 10 over a field string. -/
def cpp_stoi10 (s : String) : Option Int := cpp_stoi_core 10 dec_digit_val s.data

/-- `std::stoi` in base 16 over a field string. -/
def cpp_stoi16 (s : String) : Option Int := cpp_stoi_core 16 hex_digit_val s.data

/-- `static_cast<uint8_t>` of an `int` value. -/
def to_u8 (v : Int) : Nat := (v.emod 256).toNat

/-- `NMEAUtils::validate_checksum`. -/
def validate_checksum (s : String) : Bool :=
  let l := s.data
  let ap := l.findIdx (fun c => c == '*')
  if l.length < ap + 3 then false
  else
    match cpp_stoi16 ⟨(l.drop (ap + 1)).take 2⟩ with
    | none => false
    | some expected => calculate_checksum ⟨l.take ap⟩ == to_u8 expected

/-- Comma splitting (the `std::getline` loop), keeping empty fields. -/
def split_commas : List Char → List (List Char)
  | [] => [[]]
  | c :: rest =>
    if c = ',' then [] :: split_commas rest
    else
      match split_commas rest with
      | [] => [[c]]
      | f :: fs => (c :: f) :: fs

/-- `NMEAUtils::parse_fields`: strip the checksum part and split on commas
(`std::getline` yields no final field for a trailing delimiter, hence one
trailing empty field is dropped). -/
def parse_fields (s : String) : List String :=
  let l := s.data
  let ap := l.findIdx (fun c => c == '*')
  let fs := (split_commas (l.take ap)).map String.mk
  if fs.getLast? = some "" then fs.dropLast else fs

/-- Upper-case hexadecimal digit. -/
def hex_digit_upper (v : Nat) : Char :=
  if v < 10 then Char.ofNat (48 + v) else Char.ofNat (55 + v)

/-- Two upper-case hexadecimal digits, zero-filled width two. -/
def hex2_upper (v : Nat) : String :=
  ⟨[hex_digit_upper (v / 16 % 16), hex_digit_upper (v % 16)]⟩

/-- `NMEAUtils::create_nmea_sentence`; `none` models the validation throws. -/
def create_nmea_sentence (talker_id payload : String)
    (fragment_count fragment_number : Nat) (message_id : String)
    (channel : Char) (fill_bits : Nat) : Option String :=
  if fragment_count < 1 ∨ fragment_number < 1 ∨ fragment_count < fragment_number then none
  else if channel ≠ 'A' ∧ channel ≠ 'B' then none
  else if 5 < fill_bits then none
  else
    let base := talker_id ++ "," ++ toString fragment_count ++ "," ++
      toString fragment_number ++ "," ++ message_id ++ "," ++ String.mk [channel] ++
      "," ++ payload ++ "," ++ toString fill_bits
    some (base ++ "*" ++ hex2_upper (calculate_checksum base))

end NMEAUtils

namespace AISMessage

open BitVector NMEAUtils

/-- `AISMessage::to_nmea`, applied to the bit buffer produced by the
variant's `to_bits`: one `!AIVDM` sentence with fragment count 1, channel A,
and fill bits covering the unused tail of the last armor character. -/
def to_nmea (bits : Bits) : Option (List String) :=
  (create_nmea_sentence "!AIVDM" (to_nmea_payload bits) 1 1 ""
    'A' ((6 - bits.length % 6) % 6)).map (fun s => [s])

end AISMessage

namespace BinaryBroadcastMessage

open BitVector

/-- `BinaryBroadcastMessage::to_bits` (type 8): header, 2 spare bits,
DAC, FI, then the application data bits. -/
def to_bits (mmsi repeat_indicator dac fi : Nat) (data : Bits) : Bits :=
  append_uint (append_uint (append_uint (append_uint (append_uint (append_uint []
    8 6) repeat_indicator 2) mmsi 30) 0 2) dac 10) fi 6 ++ data

end BinaryBroadcastMessage

/-- C9 (amended): encoding a typed message emits exactly one NMEA sentence,
whose declared fragment count (1) equals the number of sentences produced and
whose declared fill bits are the unused low-order bits of the final armor
character; the payload always has ceil(bits/6) armor characters — there is no
maximum payload length and no fragmentation. -/
theorem C9_encode_single_sentence (bits : Bits) :
    AISMessage.to_nmea bits =
      (NMEAUtils.create_nmea_sentence "!AIVDM" (BitVector.to_nmea_payload bits) 1 1 ""
        'A' ((6 - bits.length % 6) % 6)).map (fun s => [s]) ∧
    ((AISMessage.to_nmea bits).getD []).length = 1 ∧
    (BitVector.to_nmea_payload bits).length = (bits.length + 5) / 6 := by
  refine ⟨rfl, ?_, ?_⟩
  · have h5 : ¬ (5 < (6 - bits.length % 6) % 6) := by omega
    simp [AISMessage.to_nmea, NMEAUtils.create_nmea_sentence, h5]
  · simp [BitVector.to_nmea_payload]

set_option maxRecDepth 100000 in
/-- C9 counterexample: a 426-bit binary broadcast message (370 application
data bits) encodes to a single sentence whose payload field holds 71 armor
characters, exceeding the 56-60 character maximum asserted by the claim. -/
theorem C9_counterexample :
    ((NMEAUtils.parse_fields
        (((AISMessage.to_nmea (BinaryBroadcastMessage.to_bits 0 0 0 0
          (List.replicate 370 false))).getD []).headD "")).getD 5 "").length = 71 ∧
    ¬ ((71:Nat) ≤ 60) := by
  exact ⟨by rfl, by norm_num⟩

/-- C10 counterexample: the in-alphabet character `@` is NOT preserved by a
write-then-read round trip — writing "@A" into 12 bits and reading back
yields "A", because get_string suppresses every `@`-decoding group. -/
theorem C10_counterexample :
    (BitVector.append_string [] "@A" 12).bind
      (fun bs => BitVector.get_string bs 0 12) = some "A" ∧
    some ("A" : String) ≠ some ("@A" : String) := by
  exact ⟨by rfl, by decide⟩

/-- Witness for C10 at a concrete input: the out-of-alphabet character 'a'
vanishes, the in-alphabet '!' survives, and the tail pads with a space. -/
theorem C10_append_string_roundtrip_witness :
    ∃ bs, BitVector.append_string [] "a!" 18 = some bs ∧
      BitVector.get_string bs 0 18 = some "! " := by
  obtain ⟨bs, h1, h2⟩ :=
    BitVector.C10_append_string_roundtrip [] "a!" 18 (by norm_num) (by norm_num)
  exact ⟨bs, h1, h2.trans (by rfl)⟩

namespace MessageFactory

open BitVector

/-- Failure modes of `MessageFactory::create_message` (all are
`std::invalid_argument` in the source, with distinct messages). -/
inductive CreateErr
  | tooSmall
  | unsupported (code : Nat)
  | variantReject
deriving DecidableEq

/-- Abstract view of a constructed typed message: the dispatched type code
and the source bits it was decoded from (equal bits and code give equal
messages; per-field extraction is not needed by the claims). -/
structure Msg where
  code : Nat
  bits : Bits
deriving DecidableEq

/-- Codes registered by the `MessageFactory` constructor (18, 19, 5) plus
the static initializer in message_factory_impl.cpp (1, 2, 3, 4, 18, 19). -/
def registered_codes : List Nat := [1, 2, 3, 4, 5, 18, 19]

/-- Minimum bit length accepted by the registered constructor of each code:
the explicit size checks of types 1-3 and 4 (168), and the deepest field
read of types 5 (get_bit 422), 18 (get_uint 148 20) and 19 (get_bit 307). -/
def variant_min_bits (code : Nat) : Nat :=
  if code = 5 then 423 else if code = 19 then 308 else 168

/-- The registered variant constructor for a code: throws (`variantReject`)
when the buffer is shorter than the variant's layout. -/
def variant_construct (code : Nat) (bits : Bits) : Except CreateErr Msg :=
  if bits.length < variant_min_bits code then .error .variantReject
  else .ok ⟨code, bits⟩

/-- `MessageFactory::create_message`: minimum-size check (38 bits), 6-bit
type-code lookup at offset 0, then the registered constructor. -/
def create_message (bits : Bits) : Except CreateErr Msg :=
  if bits.length < 38 then .error .tooSmall
  else
    let message_type := readBits bits 0 6
    if message_type ∈ registered_codes then variant_construct message_type bits
    else .error (.unsupported message_type)

end MessageFactory

/-- C5 counterexample: a buffer of exactly 6 bits — enough for the type code,
so by the claim it should be looked up — is rejected as too small (the
factory's minimum is 38 bits, not 6). -/
theorem C5_counterexample :
    MessageFactory.create_message (List.replicate 6 false) =
      .error MessageFactory.CreateErr.tooSmall ∧
    ¬ ((List.replicate 6 false : Bits).length < 6) := by
  exact ⟨rfl, by decide⟩

/-- C5 (amended): dispatch fails with the too-small error exactly when the
buffer holds fewer than 38 bits; for buffers of at least 38 bits the 6-bit
code at offset 0 is looked up, and an unregistered code fails with the
unsupported-type error. -/
theorem C5_registry_dispatch (bits : Bits) :
    (MessageFactory.create_message bits =
        .error MessageFactory.CreateErr.tooSmall ↔ bits.length < 38) ∧
    (38 ≤ bits.length →
      BitVector.readBits bits 0 6 ∉ MessageFactory.registered_codes →
      MessageFactory.create_message bits =
        .error (MessageFactory.CreateErr.unsupported (BitVector.readBits bits 0 6))) ∧
    (38 ≤ bits.length →
      BitVector.readBits bits 0 6 ∈ MessageFactory.registered_codes →
      MessageFactory.create_message bits ≠ .error MessageFactory.CreateErr.tooSmall ∧
      ∀ c, MessageFactory.create_message bits ≠
        .error (MessageFactory.CreateErr.unsupported c)) := by
  unfold MessageFactory.create_message
  by_cases h : bits.length < 38
  · rw [if_pos h]
    refine ⟨by simp [h], fun h38 => absurd h (by omega), fun h38 => absurd h (by omega)⟩
  · rw [if_neg h]
    by_cases hm : BitVector.readBits bits 0 6 ∈ MessageFactory.registered_codes
    · rw [if_pos hm]
      refine ⟨?_, fun _ hnm => absurd hm hnm, fun _ _ => ⟨?_, fun c => ?_⟩⟩
      · constructor
        · intro hc
          exfalso
          unfold MessageFactory.variant_construct at hc
          by_cases hv : bits.length < MessageFactory.variant_min_bits (BitVector.readBits bits 0 6)
          · rw [if_pos hv] at hc; exact absurd (Except.error.inj hc) (by simp)
          · rw [if_neg hv] at hc; exact Except.noConfusion hc
        · intro hc; omega
      · intro hc
        unfold MessageFactory.variant_construct at hc
        by_cases hv : bits.length < MessageFactory.variant_min_bits (BitVector.readBits bits 0 6)
        · rw [if_pos hv] at hc; exact absurd (Except.error.inj hc) (by simp)
        · rw [if_neg hv] at hc; exact Except.noConfusion hc
      · intro hc
        unfold MessageFactory.variant_construct at hc
        by_cases hv : bits.length < MessageFactory.variant_min_bits (BitVector.readBits bits 0 6)
        · rw [if_pos hv] at hc; exact absurd (Except.error.inj hc) (by simp)
        · rw [if_neg hv] at hc; exact Except.noConfusion hc
    · rw [if_neg hm]
      refine ⟨by simp [h], fun _ _ => rfl, fun _ hmem => absurd hmem hm⟩

/-- Witness for C5 at concrete inputs: a 40-bit buffer with unregistered
code 0 yields the unsupported-type error, and is not "too small". -/
theorem C5_registry_dispatch_witness :
    MessageFactory.create_message (List.replicate 40 false) =
      .error (MessageFactory.CreateErr.unsupported 0) ∧
    ¬ ((List.replicate 40 false : Bits).length < 38) := by
  have h := C5_registry_dispatch (List.replicate 40 false)
  exact ⟨h.2.1 (by decide) (by decide), by decide⟩

namespace PositionReportClassA

/-- Value domain of the C++ `float` rate-of-turn accessor: NaN, positive or
negative infinity, or a finite value (modelled as an exact real; the claim
itself allows the float's LSB slack). -/
inductive FloatVal
  | nan
  | pinf
  | ninf
  | fin (x : ℝ)

/-- `std::round` — round half away from zero — on an exact real. -/
noncomputable def round_away (x : ℝ) : Int :=
  if 0 ≤ x then ⌊x + 1 / 2⌋ else -⌊-x + 1 / 2⌋

/-- `PositionReportClassA::get_rate_of_turn`: raw -128 is N/A (NaN), raw
±127 is ±infinity, otherwise 4.733 · sqrt(|raw|) with the sign of raw. -/
noncomputable def get_rate_of_turn (rot : Int) : FloatVal :=
  if rot = -128 then .nan
  else if rot = 127 ∨ rot = -127 then (if 0 < rot then .pinf else .ninf)
  else if rot = 0 then .fin 0
  else .fin ((4.733 : ℝ) * Real.sqrt |(rot : ℝ)| * (if 0 < rot then 1 else -1))

open Classical in
/-- `PositionReportClassA::set_rate_of_turn`: NaN stores -128; magnitudes
above 708 store ±127; otherwise round((|v|/4.733)²) with the sign of v,
clamped to ±126 (the `int8_t` cast is modelled mathematically; it is exact
whenever the rounded indicator is in range, as in every theorem below). -/
noncomputable def set_rate_of_turn (v : FloatVal) : Int :=
  match v with
  | .nan => -128
  | .pinf => 127
  | .ninf => -127
  | .fin x =>
    if 708 < x then 127
    else if x < -708 then -127
    else if x = 0 then 0
    else
      let r : Int := round_away ((|x| / 4.733) ^ (2:ℕ)) * (if 0 < x then 1 else -1)
      if 126 < r then 126 else if r < -126 then -126 else r

theorem floor_add_half (z : Int) : ⌊(z : ℝ) + 1 / 2⌋ = z := by
  rw [Int.floor_eq_iff]
  refine ⟨by linarith, by linarith⟩

theorem round_away_intCast (z : Int) : round_away (z : ℝ) = z := by
  unfold round_away
  rcases le_or_lt 0 z with h | h
  · rw [if_pos (by exact_mod_cast h), floor_add_half]
  · rw [if_neg (by exact_mod_cast not_le.mpr h)]
    have hc : -((z : Int) : ℝ) = (((-z : Int)) : ℝ) := by push_cast; ring
    rw [hc, floor_add_half]
    omega

theorem abs_rot_val (raw : Int) (h0 : raw ≠ 0) :
    |(4.733:ℝ) * Real.sqrt |(raw : ℝ)| * (if 0 < raw then 1 else -1)| =
      4.733 * Real.sqrt |(raw : ℝ)| := by
  have hs_pos : 0 < Real.sqrt |(raw : ℝ)| :=
    Real.sqrt_pos.mpr (abs_pos.mpr (Int.cast_ne_zero.mpr h0))
  by_cases hp : 0 < raw
  · rw [if_pos hp, mul_one, abs_of_pos (by linarith)]
  · rw [if_neg hp]
    have hx : (4.733:ℝ) * Real.sqrt |(raw : ℝ)| * (-1) =
        -(4.733 * Real.sqrt |(raw : ℝ)|) := by ring
    rw [hx, abs_neg, abs_of_pos (by linarith)]

theorem ind_eval (raw : Int) (h0 : raw ≠ 0) :
    ((|(4.733:ℝ) * Real.sqrt |(raw : ℝ)| * (if 0 < raw then 1 else -1)| / 4.733) ^ (2:ℕ)) =
      |(raw : ℝ)| := by
  rw [abs_rot_val raw h0,
    mul_div_cancel_left₀ _ (by norm_num : (4.733:ℝ) ≠ 0)]
  exact Real.sq_sqrt (abs_nonneg _)

/-- C4 (amended): the decode accessor maps raw -128 to NaN, raw ±127 to
±infinity, raw 0 to 0 and any other raw value to sign(raw) · 4.733 · sqrt |raw|
deg/min (NOT sign(raw) · (raw/4.733)² as claimed); the mutator is the
encoding inverse — it maps NaN to -128, magnitudes above 708 deg/min to ±127,
and recovers every raw value in [-126, 126] from its decoded domain value. -/
theorem C4_rate_of_turn_scaling :
    get_rate_of_turn (-128) = .nan ∧
    get_rate_of_turn 127 = .pinf ∧
    get_rate_of_turn (-127) = .ninf ∧
    get_rate_of_turn 0 = .fin 0 ∧
    get_rate_of_turn 1 = .fin 4.733 ∧
    (∀ raw : Int, raw ≠ -128 → raw ≠ 127 → raw ≠ -127 →
      get_rate_of_turn raw =
        .fin ((4.733 : ℝ) * Real.sqrt |(raw : ℝ)| * (if 0 < raw then 1 else -1))) ∧
    set_rate_of_turn .nan = -128 ∧
    set_rate_of_turn .pinf = 127 ∧
    set_rate_of_turn .ninf = -127 ∧
    (∀ x : ℝ, 708 < x → set_rate_of_turn (.fin x) = 127) ∧
    (∀ x : ℝ, x < -708 → set_rate_of_turn (.fin x) = -127) ∧
    (∀ raw : Int, -126 ≤ raw → raw ≤ 126 →
      set_rate_of_turn (get_rate_of_turn raw) = raw) := by
  refine ⟨by norm_num [get_rate_of_turn], by norm_num [get_rate_of_turn],
    by norm_num [get_rate_of_turn], by norm_num [get_rate_of_turn], ?_, ?_,
    rfl, rfl, rfl, ?_, ?_, ?_⟩
  · rw [get_rate_of_turn]
    norm_num [Real.sqrt_one]
  · intro raw h1 h2 h3
    rw [get_rate_of_turn, if_neg h1, if_neg (by push_neg; exact ⟨h2, h3⟩)]
    by_cases h0 : raw = 0
    · subst h0
      rw [if_pos rfl]
      norm_num [Real.sqrt_zero]
    · rw [if_neg h0]
  · intro x hx
    simp only [set_rate_of_turn]
    rw [if_pos hx]
  · intro x hx
    simp only [set_rate_of_turn]
    rw [if_neg (by linarith), if_pos hx]
  · intro raw hlo hhi
    by_cases h0 : raw = 0
    · subst h0
      norm_num [get_rate_of_turn, set_rate_of_turn]
    · have h1 : raw ≠ -128 := by omega
      have h2 : raw ≠ 127 := by omega
      have h3 : raw ≠ -127 := by omega
      rw [get_rate_of_turn, if_neg h1, if_neg (by push_neg; exact ⟨h2, h3⟩), if_neg h0]
      have hs_pos : 0 < Real.sqrt |(raw : ℝ)| :=
        Real.sqrt_pos.mpr (abs_pos.mpr (Int.cast_ne_zero.mpr h0))
      have hs_le : Real.sqrt |(raw : ℝ)| ≤ 12 := by
        have hle : |(raw : ℝ)| ≤ 144 := by
          rw [← Int.cast_abs]
          have : |raw| ≤ 126 := abs_le.mpr ⟨by omega, by omega⟩
          exact_mod_cast le_trans (by exact_mod_cast this) (by norm_num)
        calc Real.sqrt |(raw : ℝ)| ≤ Real.sqrt 144 := Real.sqrt_le_sqrt hle
          _ = 12 := by
            rw [show (144:ℝ) = 12 ^ 2 by norm_num, Real.sqrt_sq (by norm_num : (0:ℝ) ≤ 12)]
      set s := Real.sqrt |(raw : ℝ)| with hs
      set x : ℝ := 4.733 * s * (if 0 < raw then 1 else -1) with hxdef
      have habs : |x| = 4.733 * s := abs_rot_val raw h0
      have hxb : |x| ≤ 57 := by rw [habs]; nlinarith
      have hx0 : x ≠ 0 := by
        intro h
        rw [h, abs_zero] at habs
        nlinarith
      simp only [set_rate_of_turn]
      rw [if_neg (by cases abs_le.mp hxb; linarith),
        if_neg (by cases abs_le.mp hxb; linarith), if_neg hx0]
      have hind : ((|x| / 4.733) ^ (2:ℕ)) = |(raw : ℝ)| := ind_eval raw h0
      have hcast : |(raw : ℝ)| = ((|raw| : Int) : ℝ) := Int.cast_abs.symm
      rw [hind, hcast, round_away_intCast]
      by_cases hp : 0 < raw
      · have hxpos : 0 < x := by
          rw [hxdef, if_pos hp, mul_one]
          linarith
        have hsign : (if 0 < x then (1:Int) else -1) = 1 := if_pos hxpos
        have habs2 : |raw| = raw := abs_of_pos hp
        rw [hsign, mul_one, habs2, if_neg (by omega), if_neg (by omega)]
      · have hxneg : x < 0 := by
          rw [hxdef, if_neg hp]
          nlinarith
        have hsign : (if 0 < x then (1:Int) else -1) = -1 := if_neg (by linarith)
        have habs2 : |raw| = -raw := abs_of_nonpos (by omega)
        rw [hsign, habs2]
        have hr : (-raw) * (-1 : Int) = raw := by ring
        rw [hr, if_neg (by omega), if_neg (by omega)]

/-- Witness for C4 at concrete inputs: raw 9 decodes to 4.733·sqrt 9 with
positive sign, the mutator recovers raw 9 from its decoded value, and a
domain value of 1000 deg/min stores raw 127. -/
theorem C4_rate_of_turn_scaling_witness :
    get_rate_of_turn 9 = .fin ((4.733 : ℝ) * Real.sqrt |((9:Int) : ℝ)| * 1) ∧
    set_rate_of_turn (get_rate_of_turn 9) = 9 ∧
    set_rate_of_turn (.fin 1000) = 127 := by
  have h := C4_rate_of_turn_scaling
  refine ⟨?_,
    h.2.2.2.2.2.2.2.2.2.2.2 9 (by norm_num) (by norm_num),
    h.2.2.2.2.2.2.2.2.2.1 1000 (by norm_num)⟩
  have h6 := h.2.2.2.2.2.1 9 (by norm_num) (by norm_num) (by norm_num)
  rw [h6]
  norm_num

/-- C4 counterexample: at raw 4 the accessor returns 4.733 · sqrt 4 = 9.466
deg/min, not sign(raw) · (raw/4.733)² ≈ 0.714 as the claim's formula states. -/
theorem C4_counterexample :
    get_rate_of_turn 4 = .fin (9.466 : ℝ) ∧
    (9.466 : ℝ) ≠ ((4:ℝ) / 4.733) ^ (2:ℕ) := by
  constructor
  · rw [get_rate_of_turn, if_neg (by norm_num), if_neg (by norm_num),
      if_neg (by norm_num), if_pos (by norm_num)]
    have h4 : |((4:Int) : ℝ)| = 4 := by norm_num
    have hsq : Real.sqrt 4 = 2 := by
      rw [show (4:ℝ) = 2 ^ 2 by norm_num, Real.sqrt_sq (by norm_num : (0:ℝ) ≤ 2)]
    rw [h4, hsq]
    norm_num
  · norm_num

end PositionReportClassA

namespace PositionReportClassA

/-- `std::round` — round half away from zero — on an exact rational. -/
def round_away_q (x : ℚ) : Int := if 0 ≤ x then ⌊x + 1 / 2⌋ else -⌊-x + 1 / 2⌋

/-- The raw latitude N/A sentinel (91 degrees in 1/10000 minute). -/
def latitude_not_available : Int := 0x3412140

/-- `PositionReportClassA::set_latitude`: out-of-range latitudes store the
sentinel; in-range latitudes store degrees × 600000, rounded to nearest. -/
def set_latitude (latitude : ℚ) : Int :=
  if 90 < latitude ∨ latitude < -90 then latitude_not_available
  else round_away_q (latitude * 600000)

/-- `PositionReportClassA::get_latitude`. -/
def get_latitude (lat : Int) : ℚ :=
  if lat = latitude_not_available then 91 else (lat : ℚ) / 600000

theorem round_away_q_bound (x : ℚ) (B : Int) (hB : 0 ≤ B) (h : |x| ≤ (B : ℚ)) :
    -B ≤ round_away_q x ∧ round_away_q x ≤ B := by
  obtain ⟨hlo, hhi⟩ := abs_le.mp h
  unfold round_away_q
  split
  case isTrue h0 =>
    constructor
    · have h1 : (0:Int) ≤ ⌊x + 1 / 2⌋ := Int.le_floor.mpr (by push_cast; linarith)
      omega
    · have h1 : ⌊x + 1 / 2⌋ < B + 1 := Int.floor_lt.mpr (by push_cast; linarith)
      omega
  case isFalse h0 =>
    push_neg at h0
    constructor
    · have h1 : ⌊-x + 1 / 2⌋ < B + 1 := Int.floor_lt.mpr (by push_cast; linarith)
      omega
    · have h1 : (0:Int) ≤ ⌊-x + 1 / 2⌋ := Int.le_floor.mpr (by push_cast; linarith)
      omega

/-- C7: the latitude mutator stores the sentinel 0x3412140 for every
latitude outside [-90, 90] and the accessor then reports a value above 90;
for latitudes inside the range it stores degrees × 600000 rounded to the
nearest integer — which fits a signed 27-bit raw field — and the accessor
returns raw / 600000. -/
theorem C7_latitude_codec (lat : ℚ) :
    ((90 < lat ∨ lat < -90) →
      set_latitude lat = 0x3412140 ∧ 90 < get_latitude (set_latitude lat)) ∧
    (-90 ≤ lat → lat ≤ 90 →
      set_latitude lat = round_away_q (lat * 600000) ∧
      -(2 ^ 26) < set_latitude lat ∧ set_latitude lat < 2 ^ 26 ∧
      get_latitude (set_latitude lat) = (round_away_q (lat * 600000) : ℚ) / 600000) := by
  constructor
  · intro h
    have hset : set_latitude lat = latitude_not_available := by
      rw [set_latitude, if_pos h]
    refine ⟨hset, ?_⟩
    rw [hset, get_latitude, if_pos rfl]
    norm_num
  · intro hlo hhi
    have hcond : ¬ (90 < lat ∨ lat < -90) := by push_neg; exact ⟨hhi, hlo⟩
    have hset : set_latitude lat = round_away_q (lat * 600000) := by
      rw [set_latitude, if_neg hcond]
    have habs : |lat * 600000| ≤ ((54000000 : Int) : ℚ) := by
      rw [abs_mul]
      have h1 : |lat| ≤ 90 := abs_le.mpr ⟨hlo, hhi⟩
      have h2 : |(600000:ℚ)| = 600000 := by norm_num
      rw [h2]
      push_cast
      nlinarith
    obtain ⟨hb1, hb2⟩ := round_away_q_bound (lat * 600000) 54000000 (by norm_num) habs
    have hp26 : (2:Int) ^ 26 = 67108864 := by norm_num
    refine ⟨hset, by rw [hset]; omega, by rw [hset]; omega, ?_⟩
    rw [hset, get_latitude, if_neg (by rw [latitude_not_available]; omega)]

/-- Witness for C7 at the concrete input 200 degrees (the spec's scenario). -/
theorem C7_latitude_codec_witness :
    set_latitude 200 = 0x3412140 ∧ 90 < get_latitude (set_latitude 200) := by
  exact (C7_latitude_codec 200).1 (Or.inl (by norm_num))

end PositionReportClassA

namespace MultipartMessageManager

open BitVector

/-- One fragment slot (`MultipartMessageManager::Fragment`); value-initialized
slots have empty payload, zero fill bits and `received = false`. -/
structure Fragment where
  payload : String
  fill_bits : Nat
  received : Bool
deriving DecidableEq

/-- `MultipartMessageManager::MessageInfo`. `last_update` is a
steady-clock timestamp, modelled as a natural number. -/
structure MessageInfo where
  fragments : List Fragment
  last_update : Nat
  received_count : Nat
deriving DecidableEq

/-- `MultipartMessageManager::MessageKey` — (message id, channel). -/
abbrev Key := String × Char

/-- Manager state. The association list stands in for `std::map`; entry
order only influences tie-breaking among equal `last_update` stamps during
eviction, which the theorems below exclude by hypothesis. -/
structure MMState where
  messages : List (Key × MessageInfo)
  timeout : Nat
  max_messages : Nat
deriving DecidableEq

/-- `std::map::find`. -/
def find_info (msgs : List (Key × MessageInfo)) (k : Key) : Option MessageInfo :=
  (msgs.find? (fun kv => decide (kv.1 = k))).map (fun kv => kv.2)

/-- `std::map::erase` of the (unique) entry with the given key. -/
def erase_key (msgs : List (Key × MessageInfo)) (k : Key) : List (Key × MessageInfo) :=
  msgs.eraseP (fun kv => decide (kv.1 = k))

/-- Mutation through the map iterator: replace the entry's value in place. -/
def update_info (msgs : List (Key × MessageInfo)) (k : Key) (info : MessageInfo) :
    List (Key × MessageInfo) :=
  msgs.map (fun kv => if kv.1 = k then (k, info) else kv)

/-- The oldest-group scan of the eviction loop: first entry (in iteration
order) whose `last_update` is strictly smaller than every earlier candidate. -/
def oldest_key (msgs : List (Key × MessageInfo)) : Option Key :=
  (msgs.foldl (fun best kv =>
    match best with
    | none => some kv
    | some b => if kv.2.last_update < b.2.last_update then some kv else some b)
    none).map (fun kv => kv.1)

/-- `MultipartMessageManager::combine_fragments`: armor-decode every slot,
trim the declared fill bits from the last slot. `none` models the armor
decode throw and the size_t underflow of `size - fill_bits`. -/
def combine_fragments : List Fragment → Option Bits
  | [] => some []
  | [f] =>
    (from_nmea_payload f.payload).bind (fun l =>
      if f.fill_bits ≤ l.length then some (l.take (l.length - f.fill_bits)) else none)
  | f :: rest =>
    (from_nmea_payload f.payload).bind (fun l =>
      (combine_fragments rest).map (fun r => l ++ r))

/-- Outcome of one submission. -/
inductive MMOut where
  | thrown
  | incomplete
  | complete (bits : Bits)
deriving DecidableEq

/-- The find-or-create step of `add_fragment`, including the capacity
eviction performed right after inserting a fresh group. -/
def create_or_get (st : MMState) (key : Key) (now fragment_count : Nat) :
    List (Key × MessageInfo) :=
  match find_info st.messages key with
  | some _ => st.messages
  | none =>
    let inserted := st.messages ++
      [(key, ⟨List.replicate fragment_count ⟨"", 0, false⟩, now, 0⟩)]
    if st.max_messages < inserted.length then
      match oldest_key inserted with
      | some ok => erase_key inserted ok
      | none => inserted
    else inserted

/-- `MultipartMessageManager::add_fragment`. `now` models
`steady_clock::now()`. `.thrown` covers the validation throws (state
unchanged) and the combine throw (slot update already applied). The two
inner `.thrown` fallbacks mark undefined behaviour of the source (dangling
iterator after self-eviction; out-of-bounds `fragments[n-1]`), excluded by
the theorems' hypotheses. -/
def add_fragment (st : MMState) (now : Nat) (fragment_number fragment_count : Nat)
    (message_id : String) (channel : Char) (payload : String) (fill_bits : Nat) :
    MMOut × MMState :=
  if fragment_number < 1 ∨ fragment_count < fragment_number then (.thrown, st)
  else if channel ≠ 'A' ∧ channel ≠ 'B' then (.thrown, st)
  else if 5 < fill_bits then (.thrown, st)
  else
    let key : Key :=
      (if message_id = "" then "seq" ++ toString fragment_count else message_id, channel)
    let msgs1 := create_or_get st key now fragment_count
    match find_info msgs1 key with
    | none => (.thrown, { st with messages := msgs1 })
    | some info =>
      if h : fragment_number - 1 < info.fragments.length then
        let info2 :=
          if (info.fragments.get ⟨fragment_number - 1, h⟩).received then info
          else ⟨info.fragments.set (fragment_number - 1) ⟨payload, fill_bits, true⟩,
                now, info.received_count + 1⟩
        if info2.received_count = info2.fragments.length then
          match combine_fragments info2.fragments with
          | some bits => (.complete bits, { st with messages := erase_key msgs1 key })
          | none => (.thrown, { st with messages := update_info msgs1 key info2 })
        else (.incomplete, { st with messages := update_info msgs1 key info2 })
      else (.thrown, { st with messages := msgs1 })

/-- `MultipartMessageManager::cleanup_expired`: drop every group idle
longer than the timeout. -/
def cleanup_expired (st : MMState) (now : Nat) : MMState :=
  { st with messages :=
      st.messages.filter (fun kv => decide (now - kv.2.last_update ≤ st.timeout)) }

/-- `MultipartMessageManager::clear`. -/
def clear (st : MMState) : MMState := { st with messages := [] }

/-- `MultipartMessageManager::get_incomplete_count`. -/
def get_incomplete_count (st : MMState) : Nat := st.messages.length

/-- `MultipartMessageManager::set_timeout`. -/
def set_timeout (st : MMState) (t : Nat) : MMState := { st with timeout := t }

/-- `MultipartMessageManager::set_max_messages`: lower the bound and evict
the oldest groups (by `last_update`) until the map fits. -/
def set_max_messages (st : MMState) (maxm : Nat) : MMState :=
  if maxm < st.messages.length then
    { messages := (st.messages.mergeSort
        (fun a b => decide (a.2.last_update ≤ b.2.last_update))).drop
        (st.messages.length - maxm),
      timeout := st.timeout,
      max_messages := maxm }
  else { st with max_messages := maxm }

end MultipartMessageManager

namespace MultipartMessageManager

theorem length_update_info (msgs : List (Key × MessageInfo)) (k : Key) (info : MessageInfo) :
    (update_info msgs k info).length = msgs.length := by
  simp [update_info]

theorem keys_update_info (msgs : List (Key × MessageInfo)) (k : Key) (info : MessageInfo) :
    (update_info msgs k info).map Prod.fst = msgs.map Prod.fst := by
  rw [update_info, List.map_map]
  refine List.map_congr_left (fun kv _ => ?_)
  by_cases h : kv.1 = k <;> simp [h]

theorem find_info_eq_none_iff (msgs : List (Key × MessageInfo)) (k : Key) :
    find_info msgs k = none ↔ k ∉ msgs.map Prod.fst := by
  rw [find_info, Option.map_eq_none', List.find?_eq_none]
  simp only [List.mem_map, decide_eq_true_eq]
  constructor
  · rintro h ⟨kv, hkv, rfl⟩
    exact h kv hkv rfl
  · intro h kv hkv hk
    exact h ⟨kv, hkv, hk⟩

theorem find_info_append_right (msgs : List (Key × MessageInfo)) (k : Key)
    (i : MessageInfo) (h : find_info msgs k = none) :
    find_info (msgs ++ [(k, i)]) k = some i := by
  rw [find_info] at h ⊢
  rw [List.find?_append]
  rw [Option.map_eq_none'] at h
  rw [h]
  simp [List.find?]

theorem find_info_cons (kv : Key × MessageInfo) (rest : List (Key × MessageInfo))
    (k : Key) :
    find_info (kv :: rest) k = if kv.1 = k then some kv.2 else find_info rest k := by
  rw [find_info, List.find?_cons]
  by_cases h : kv.1 = k
  · rw [show (decide (kv.1 = k)) = true by simpa using h, if_pos h]
    rfl
  · rw [show (decide (kv.1 = k)) = false by simpa using h, if_neg h]
    rfl

theorem find_info_erase_ne (msgs : List (Key × MessageInfo)) (k1 k2 : Key)
    (hne : k1 ≠ k2) :
    find_info (erase_key msgs k2) k1 = find_info msgs k1 := by
  induction msgs with
  | nil => rfl
  | cons kv rest ih =>
    rw [erase_key, List.eraseP_cons]
    by_cases h : kv.1 = k2
    · simp only [show (decide (kv.1 = k2)) = true by simpa using h, cond_true]
      rw [find_info_cons, if_neg (fun h1 => hne (by rw [← h1, h]))]
    · simp only [show (decide (kv.1 = k2)) = false by simpa using h, cond_false]
      rw [find_info_cons, find_info_cons]
      by_cases h1 : kv.1 = k1
      · rw [if_pos h1, if_pos h1]
      · rw [if_neg h1, if_neg h1]
        exact ih

theorem find_info_erase_self (msgs : List (Key × MessageInfo)) (k : Key)
    (hnd : (msgs.map Prod.fst).Nodup) :
    find_info (erase_key msgs k) k = none := by
  induction msgs with
  | nil => rfl
  | cons kv rest ih =>
    rw [List.map_cons, List.nodup_cons] at hnd
    rw [erase_key, List.eraseP_cons]
    by_cases h : kv.1 = k
    · simp only [show (decide (kv.1 = k)) = true by simpa using h, cond_true]
      rw [find_info_eq_none_iff, ← h]
      exact hnd.1
    · simp only [show (decide (kv.1 = k)) = false by simpa using h, cond_false]
      rw [find_info_cons, if_neg h]
      exact ih hnd.2

theorem fold_min_aux (l : List (Key × MessageInfo)) :
    ∀ b0 : Key × MessageInfo,
    ∃ kv, l.foldl (fun best kv => match best with
        | none => some kv
        | some b => if kv.2.last_update < b.2.last_update then some kv else some b)
      (some b0) = some kv ∧ (kv ∈ l ∨ kv = b0) ∧
      kv.2.last_update ≤ b0.2.last_update ∧
      ∀ kv2 ∈ l, kv.2.last_update ≤ kv2.2.last_update := by
  induction l with
  | nil => exact fun b0 => ⟨b0, rfl, Or.inr rfl, le_rfl, by simp⟩
  | cons x xs ih =>
    intro b0
    rw [List.foldl_cons]
    by_cases hx : x.2.last_update < b0.2.last_update
    · obtain ⟨kv, h1, h2, h3, h4⟩ := ih x
      refine ⟨kv, ?_, ?_, ?_, ?_⟩
      · have hstep : (match some b0 with
            | none => some x
            | some b => if x.2.last_update < b.2.last_update then some x else some b) =
            some x := by
          show (if x.2.last_update < b0.2.last_update then some x else some b0) = some x
          rw [if_pos hx]
        rw [hstep]
        exact h1
      · rcases h2 with h2 | h2
        · exact Or.inl (List.mem_cons_of_mem _ h2)
        · exact Or.inl (h2 ▸ List.mem_cons_self _ _)
      · exact le_trans h3 (le_of_lt hx)
      · intro kv2 hkv2
        rcases List.mem_cons.mp hkv2 with h | h
        · exact h ▸ h3
        · exact h4 kv2 h
    · obtain ⟨kv, h1, h2, h3, h4⟩ := ih b0
      refine ⟨kv, ?_, ?_, h3, ?_⟩
      · have hstep : (match some b0 with
            | none => some x
            | some b => if x.2.last_update < b.2.last_update then some x else some b) =
            some b0 := by
          show (if x.2.last_update < b0.2.last_update then some x else some b0) = some b0
          rw [if_neg hx]
        rw [hstep]
        exact h1
      · rcases h2 with h2 | h2
        · exact Or.inl (List.mem_cons_of_mem _ h2)
        · exact Or.inr h2
      · intro kv2 hkv2
        rcases List.mem_cons.mp hkv2 with h | h
        · exact h ▸ le_trans h3 (not_lt.mp hx)
        · exact h4 kv2 h

theorem oldest_key_spec (msgs : List (Key × MessageInfo)) (hne : msgs ≠ []) :
    ∃ kv ∈ msgs, oldest_key msgs = some kv.1 ∧
      ∀ kv2 ∈ msgs, kv.2.last_update ≤ kv2.2.last_update := by
  cases msgs with
  | nil => exact absurd rfl hne
  | cons m rest =>
    obtain ⟨kv, h1, h2, h3, h4⟩ := fold_min_aux rest m
    refine ⟨kv, ?_, ?_, ?_⟩
    · rcases h2 with h2 | h2
      · exact List.mem_cons_of_mem _ h2
      · exact h2 ▸ List.mem_cons_self _ _
    · rw [oldest_key, List.foldl_cons]
      rw [show (match (none : Option (Key × MessageInfo)) with
          | none => some m
          | some b => if m.2.last_update < b.2.last_update then some m else some b) =
          some m from rfl]
      rw [h1]
      rfl
    · intro kv2 hkv2
      rcases List.mem_cons.mp hkv2 with h | h
      · exact h ▸ h3
      · exact h4 kv2 h

end MultipartMessageManager

namespace MultipartMessageManager

theorem length_create_or_get (st : MMState) (key : Key) (now fc : Nat)
    (hle : st.messages.length ≤ st.max_messages) :
    (create_or_get st key now fc).length ≤ st.max_messages := by
  rw [create_or_get]
  cases hfind : find_info st.messages key with
  | some v => exact hle
  | none =>
    dsimp only
    by_cases hcap : st.max_messages <
        (st.messages ++ [(key, (⟨List.replicate fc ⟨"", 0, false⟩, now, 0⟩ :
          MessageInfo))]).length
    · rw [if_pos hcap]
      have hne : st.messages ++ [(key, (⟨List.replicate fc ⟨"", 0, false⟩, now, 0⟩ :
          MessageInfo))] ≠ [] := by simp
      obtain ⟨kv, hmem, hok, hmin⟩ := oldest_key_spec _ hne
      rw [hok]
      have hlen : (erase_key (st.messages ++
          [(key, (⟨List.replicate fc ⟨"", 0, false⟩, now, 0⟩ : MessageInfo))])
          kv.1).length = (st.messages ++
          [(key, (⟨List.replicate fc ⟨"", 0, false⟩, now, 0⟩ : MessageInfo))]).length - 1 :=
        List.length_eraseP_of_mem hmem (by simp)
      rw [hlen]
      simp only [List.length_append, List.length_cons, List.length_nil]
      omega
    · rw [if_neg hcap]
      simp only [List.length_append, List.length_cons, List.length_nil] at hcap ⊢
      omega

theorem add_fragment_length_le (st : MMState) (now fn fc : Nat) (mid : String)
    (ch : Char) (payload : String) (fb : Nat)
    (hle : st.messages.length ≤ st.max_messages) :
    ((add_fragment st now fn fc mid ch payload fb).2).messages.length ≤
      st.max_messages := by
  rw [add_fragment]
  split
  · exact hle
  · split
    · exact hle
    · split
      · exact hle
      · dsimp only
        generalize ((if mid = "" then "seq" ++ toString fc else mid : String), ch) = key0
        have h1 := length_create_or_get st key0 now fc hle
        split
        · simpa using h1
        · split
          all_goals try split
          all_goals try split
          all_goals try split
          all_goals dsimp only
          all_goals try simp only [erase_key, length_update_info]
          all_goals first
            | exact h1
            | exact le_trans (List.length_eraseP_le _) h1

theorem cleanup_expired_length_le (st : MMState) (now : Nat)
    (hle : st.messages.length ≤ st.max_messages) :
    (cleanup_expired st now).messages.length ≤ st.max_messages :=
  le_trans (List.length_filter_le _ _) hle

theorem set_max_messages_length_le (st : MMState) (m : Nat) :
    (set_max_messages st m).messages.length ≤ m := by
  rw [set_max_messages]
  split
  · simp only [List.length_drop, List.length_mergeSort]
    omega
  · simp only
    omega

theorem clear_length (st : MMState) : (clear st).messages.length = 0 := by
  simp [clear]

end MultipartMessageManager

namespace MultipartMessageManager

theorem create_or_get_evict (st : MMState) (key : Key) (now fc : Nat)
    (hnd : (st.messages.map Prod.fst).Nodup)
    (hfull : st.messages.length = st.max_messages)
    (hmax : 1 ≤ st.max_messages)
    (htimes : ∀ kv ∈ st.messages, kv.2.last_update < now)
    (habsent : find_info st.messages key = none) :
    ∃ evicted ∈ st.messages,
      (∀ kv ∈ st.messages, evicted.2.last_update ≤ kv.2.last_update) ∧
      create_or_get st key now fc =
        erase_key (st.messages ++
          [(key, ⟨List.replicate fc ⟨"", 0, false⟩, now, 0⟩)]) evicted.1 ∧
      evicted.1 ≠ key := by
  have hins_len : (st.messages ++
      [(key, (⟨List.replicate fc ⟨"", 0, false⟩, now, 0⟩ : MessageInfo))]).length =
      st.max_messages + 1 := by
    simp [hfull]
  have hne : st.messages ++
      [(key, (⟨List.replicate fc ⟨"", 0, false⟩, now, 0⟩ : MessageInfo))] ≠ [] := by
    simp
  obtain ⟨kv, hmem, hok, hmin⟩ := oldest_key_spec _ hne
  have hmem' : kv ∈ st.messages := by
    rcases List.mem_append.mp hmem with h | h
    · exact h
    · exfalso
      have hkv : kv = (key, (⟨List.replicate fc ⟨"", 0, false⟩, now, 0⟩ : MessageInfo)) := by
        simpa using h
      have hex : ∃ kv2, kv2 ∈ st.messages := by
        have hne2 : st.messages ≠ [] := by
          intro hnil
          rw [hnil] at hfull
          simp only [List.length_nil] at hfull
          omega
        exact List.exists_mem_of_ne_nil _ hne2
      obtain ⟨kv2, hkv2⟩ := hex
      have h1 := hmin kv2 (List.mem_append.mpr (Or.inl hkv2))
      have h2 := htimes kv2 hkv2
      rw [hkv] at h1
      have h1' : now ≤ kv2.2.last_update := by simpa using h1
      omega
  refine ⟨kv, hmem', fun kv2 hkv2 => hmin kv2 (List.mem_append.mpr (Or.inl hkv2)), ?_, ?_⟩
  · rw [create_or_get, habsent]
    dsimp only
    rw [if_pos (by rw [hins_len]; omega), hok]
  · intro hkey
    have : key ∈ st.messages.map Prod.fst := List.mem_map.mpr ⟨kv, hmem', hkey⟩
    exact (find_info_eq_none_iff st.messages key).mp habsent this

theorem add_fragment_evicts_oldest (st : MMState) (now fn fc : Nat) (mid : String)
    (ch : Char) (payload : String) (fb : Nat)
    (hfn1 : 1 ≤ fn) (hfnfc : fn ≤ fc) (hfc2 : 2 ≤ fc)
    (hch : ch = 'A' ∨ ch = 'B') (hfb : fb ≤ 5)
    (hnd : (st.messages.map Prod.fst).Nodup)
    (hfull : st.messages.length = st.max_messages)
    (hmax : 1 ≤ st.max_messages)
    (htimes : ∀ kv ∈ st.messages, kv.2.last_update < now)
    (habsent : find_info st.messages
      ((if mid = "" then "seq" ++ toString fc else mid), ch) = none) :
    ∃ evicted ∈ st.messages,
      (∀ kv ∈ st.messages, evicted.2.last_update ≤ kv.2.last_update) ∧
      find_info ((add_fragment st now fn fc mid ch payload fb).2).messages
        evicted.1 = none ∧
      find_info ((add_fragment st now fn fc mid ch payload fb).2).messages
        ((if mid = "" then "seq" ++ toString fc else mid), ch) ≠ none ∧
      ((add_fragment st now fn fc mid ch payload fb).2).messages.length =
        st.max_messages := by
  have hval1 : ¬ (fn < 1 ∨ fc < fn) := by omega
  have hval2 : ¬ (ch ≠ 'A' ∧ ch ≠ 'B') := by rcases hch with h | h <;> simp [h]
  have hval3 : ¬ (5 < fb) := by omega
  rw [add_fragment, if_neg hval1, if_neg hval2, if_neg hval3]
  dsimp only
  set key : Key := ((if mid = "" then "seq" ++ toString fc else mid), ch) with hkey
  obtain ⟨ev, hev_mem, hev_min, hc, hev_ne⟩ :=
    create_or_get_evict st key now fc hnd hfull hmax htimes habsent
  set info0 : MessageInfo := ⟨List.replicate fc ⟨"", 0, false⟩, now, 0⟩ with hinfo0
  set inserted := st.messages ++ [(key, info0)] with hins
  have hnd_ins : (inserted.map Prod.fst).Nodup := by
    rw [hins, List.map_append, List.nodup_append]
    refine ⟨hnd, by simp, ?_⟩
    intro a ha hb
    simp only [List.map_cons, List.map_nil, List.mem_cons, List.not_mem_nil, or_false] at hb
    rw [hb] at ha
    exact (find_info_eq_none_iff st.messages key).mp habsent ha
  have hfind1 : find_info (erase_key inserted ev.1) key = some info0 := by
    rw [find_info_erase_ne inserted key ev.1 (fun h => hev_ne h.symm)]
    exact find_info_append_right st.messages key info0 habsent
  have hlen1 : (erase_key inserted ev.1).length = st.max_messages := by
    have hl : (inserted.eraseP (fun kv => decide (kv.1 = ev.1))).length =
        inserted.length - 1 :=
      List.length_eraseP_of_mem (List.mem_append.mpr (Or.inl hev_mem)) (by simp)
    rw [erase_key, hl, hins]
    simp [hfull]
  have hfind_ev : find_info (erase_key inserted ev.1) ev.1 = none :=
    find_info_erase_self inserted ev.1 hnd_ins
  rw [hc, hfind1]
  dsimp only
  rw [dif_pos (show fn - 1 < info0.fragments.length by
    rw [hinfo0]; simp only [List.length_replicate]; omega)]
  simp only [hinfo0, List.get_replicate, Bool.false_eq_true, if_false,
    List.length_set, List.length_replicate]
  rw [if_neg (show ¬ (0 + 1 = fc) by omega)]
  dsimp only
  refine ⟨ev, hev_mem, hev_min, ?_, ?_, ?_⟩
  · rw [find_info_eq_none_iff, keys_update_info]
    exact (find_info_eq_none_iff _ _).mp hfind_ev
  · intro hnone
    rw [find_info_eq_none_iff, keys_update_info] at hnone
    apply hnone
    have hfound : ∃ kv2 ∈ erase_key inserted ev.1, kv2.1 = key := by
      rcases hf : (erase_key inserted ev.1).find? (fun kv => decide (kv.1 = key))
        with _ | kv2
      · rw [find_info, hf] at hfind1
        simp at hfind1
      · exact ⟨kv2, List.mem_of_find?_eq_some hf, by simpa using List.find?_some hf⟩
    obtain ⟨kv2, hm2, hk2⟩ := hfound
    exact List.mem_map.mpr ⟨kv2, hm2, hk2⟩
  · rw [length_update_info]
    exact hlen1

end MultipartMessageManager

namespace MultipartMessageManager

/-- C8: after every add_fragment, cleanup_expired, set_max_messages and
clear, the number of buffered fragment groups is at most max_groups; and a
submission creating a group under a full map evicts the
least-recently-updated group, leaving the new group buffered and the count
at max_groups (the eviction conjunct assumes distinct timestamps — a fresh
clock reading strictly after all stored stamps — matching the monotone
steady clock of the source). -/
theorem C8_capacity_invariant :
    (∀ (st : MMState) (now fn fc : Nat) (mid : String) (ch : Char)
        (payload : String) (fb : Nat),
      st.messages.length ≤ st.max_messages →
      ((add_fragment st now fn fc mid ch payload fb).2).messages.length ≤
        st.max_messages) ∧
    (∀ (st : MMState) (now : Nat),
      st.messages.length ≤ st.max_messages →
      (cleanup_expired st now).messages.length ≤ st.max_messages) ∧
    (∀ (st : MMState) (m : Nat), (set_max_messages st m).messages.length ≤ m) ∧
    (∀ st : MMState, (clear st).messages.length ≤ st.max_messages) ∧
    (∀ (st : MMState) (now fn fc : Nat) (mid : String) (ch : Char)
        (payload : String) (fb : Nat),
      1 ≤ fn → fn ≤ fc → 2 ≤ fc → (ch = 'A' ∨ ch = 'B') → fb ≤ 5 →
      (st.messages.map Prod.fst).Nodup →
      st.messages.length = st.max_messages → 1 ≤ st.max_messages →
      (∀ kv ∈ st.messages, kv.2.last_update < now) →
      find_info st.messages
        ((if mid = "" then "seq" ++ toString fc else mid), ch) = none →
      ∃ evicted ∈ st.messages,
        (∀ kv ∈ st.messages, evicted.2.last_update ≤ kv.2.last_update) ∧
        find_info ((add_fragment st now fn fc mid ch payload fb).2).messages
          evicted.1 = none ∧
        find_info ((add_fragment st now fn fc mid ch payload fb).2).messages
          ((if mid = "" then "seq" ++ toString fc else mid), ch) ≠ none ∧
        ((add_fragment st now fn fc mid ch payload fb).2).messages.length =
          st.max_messages) :=
  ⟨add_fragment_length_le, cleanup_expired_length_le, set_max_messages_length_le,
   fun st => le_of_eq_of_le (clear_length st) (Nat.zero_le _),
   add_fragment_evicts_oldest⟩

/-- Witness for C8 at concrete inputs, including a concrete eviction of the
oldest of one buffered group when a fresh two-fragment group arrives at a
manager whose capacity is one. -/
theorem C8_capacity_invariant_witness :
    ((add_fragment ⟨[], 60, 100⟩ 0 1 2 "7" 'A' "00" 0).2).messages.length ≤ 100 ∧
    (cleanup_expired ⟨[], 60, 100⟩ 5).messages.length ≤ 100 ∧
    (set_max_messages ⟨[], 60, 100⟩ 5).messages.length ≤ 5 ∧
    (clear (⟨[], 60, 100⟩ : MMState)).messages.length ≤ 100 ∧
    (∃ evicted ∈ (⟨[(("k", 'A'),
          ⟨List.replicate 2 ⟨"", 0, false⟩, 0, 0⟩)], 60, 1⟩ : MMState).messages,
      (∀ kv ∈ (⟨[(("k", 'A'),
          ⟨List.replicate 2 ⟨"", 0, false⟩, 0, 0⟩)], 60, 1⟩ : MMState).messages,
        evicted.2.last_update ≤ kv.2.last_update) ∧
      find_info ((add_fragment ⟨[(("k", 'A'),
          ⟨List.replicate 2 ⟨"", 0, false⟩, 0, 0⟩)], 60, 1⟩ 1 1 2 "m" 'A' "00" 0).2).messages
        evicted.1 = none ∧
      find_info ((add_fragment ⟨[(("k", 'A'),
          ⟨List.replicate 2 ⟨"", 0, false⟩, 0, 0⟩)], 60, 1⟩ 1 1 2 "m" 'A' "00" 0).2).messages
        ((if ("m" : String) = "" then "seq" ++ toString 2 else "m"), 'A') ≠ none ∧
      ((add_fragment ⟨[(("k", 'A'),
          ⟨List.replicate 2 ⟨"", 0, false⟩, 0, 0⟩)], 60, 1⟩ 1 1 2 "m" 'A' "00" 0).2).messages.length =
        (⟨[(("k", 'A'),
          ⟨List.replicate 2 ⟨"", 0, false⟩, 0, 0⟩)], 60, 1⟩ : MMState).max_messages) := by
  have h := C8_capacity_invariant
  refine ⟨h.1 ⟨[], 60, 100⟩ 0 1 2 "7" 'A' "00" 0 (by decide),
    h.2.1 ⟨[], 60, 100⟩ 5 (by decide),
    h.2.2.1 ⟨[], 60, 100⟩ 5,
    h.2.2.2.1 ⟨[], 60, 100⟩,
    h.2.2.2.2 ⟨[(("k", 'A'), ⟨List.replicate 2 ⟨"", 0, false⟩, 0, 0⟩)], 60, 1⟩
      1 1 2 "m" 'A' "00" 0 (by decide) (by decide) (by decide) (Or.inl rfl)
      (by decide) (by decide) (by decide) (by decide) ?_ ?_⟩
  · decide
  · decide

end MultipartMessageManager

namespace MultipartMessageManager

/-- The effective group key computed by `add_fragment`. -/
def group_key (mid : String) (ch : Char) (N : Nat) : Key :=
  ((if mid = "" then "seq" ++ toString N else mid), ch)

theorem find_info_nil (k : Key) : find_info [] k = none := rfl

theorem find_info_singleton (k : Key) (i : MessageInfo) :
    find_info [(k, i)] k = some i := by
  rw [find_info_cons, if_pos rfl]

theorem erase_key_singleton (k : Key) (i : MessageInfo) :
    erase_key [(k, i)] k = [] := by
  simp [erase_key, List.eraseP_cons]

theorem update_info_singleton (k : Key) (i i2 : MessageInfo) :
    update_info [(k, i)] k i2 = [(k, i2)] := by
  simp [update_info]

theorem add_fragment_existing (T M : Nat) (mid : String) (ch : Char)
    (now j N : Nat) (payload : String) (fb : Nat) (info : MessageInfo)
    (h1 : 1 ≤ j) (h2 : j ≤ N) (hch : ch = 'A' ∨ ch = 'B') (hfb : fb ≤ 5)
    (hlen : info.fragments.length = N)
    (hrec : ∀ h : j - 1 < info.fragments.length,
      (info.fragments.get ⟨j - 1, h⟩).received = false) :
    add_fragment ⟨[(group_key mid ch N, info)], T, M⟩ now j N mid ch payload fb =
      (if info.received_count + 1 = N then
        match combine_fragments (info.fragments.set (j - 1) ⟨payload, fb, true⟩) with
        | some bits => (.complete bits, ⟨[], T, M⟩)
        | none => (.thrown, ⟨[(group_key mid ch N,
            ⟨info.fragments.set (j - 1) ⟨payload, fb, true⟩, now,
              info.received_count + 1⟩)], T, M⟩)
      else (.incomplete, ⟨[(group_key mid ch N,
          ⟨info.fragments.set (j - 1) ⟨payload, fb, true⟩, now,
            info.received_count + 1⟩)], T, M⟩)) := by
  rw [add_fragment, if_neg (by omega),
    if_neg (by rcases hch with h | h <;> rw [h] <;> simp), if_neg (by omega)]
  dsimp only
  rw [show ((if mid = "" then "seq" ++ toString N else mid : String), ch) =
    group_key mid ch N from rfl]
  have hfind : find_info (⟨[(group_key mid ch N, info)], T, M⟩ : MMState).messages
      (group_key mid ch N) = some info := find_info_singleton _ _
  rw [create_or_get, hfind]
  dsimp only
  rw [find_info_singleton]
  dsimp only
  rw [dif_pos (show j - 1 < info.fragments.length by omega)]
  rw [hrec (show j - 1 < info.fragments.length by omega)]
  simp only [Bool.false_eq_true, if_false]
  simp only [List.length_set, hlen]
  rw [erase_key_singleton, update_info_singleton]

theorem add_fragment_fresh (T M : Nat) (mid : String) (ch : Char)
    (now j N : Nat) (payload : String) (fb : Nat)
    (h1 : 1 ≤ j) (h2 : j ≤ N) (hch : ch = 'A' ∨ ch = 'B') (hfb : fb ≤ 5)
    (hM : 1 ≤ M) :
    add_fragment ⟨[], T, M⟩ now j N mid ch payload fb =
      (if 0 + 1 = N then
        match combine_fragments
            ((List.replicate N ⟨"", 0, false⟩).set (j - 1) ⟨payload, fb, true⟩) with
        | some bits => (.complete bits, ⟨[], T, M⟩)
        | none => (.thrown, ⟨[(group_key mid ch N,
            ⟨(List.replicate N ⟨"", 0, false⟩).set (j - 1) ⟨payload, fb, true⟩, now,
              0 + 1⟩)], T, M⟩)
      else (.incomplete, ⟨[(group_key mid ch N,
          ⟨(List.replicate N ⟨"", 0, false⟩).set (j - 1) ⟨payload, fb, true⟩, now,
            0 + 1⟩)], T, M⟩)) := by
  rw [add_fragment, if_neg (by omega),
    if_neg (by rcases hch with h | h <;> rw [h] <;> simp), if_neg (by omega)]
  dsimp only
  rw [show ((if mid = "" then "seq" ++ toString N else mid : String), ch) =
    group_key mid ch N from rfl]
  rw [create_or_get]
  rw [find_info_nil]
  dsimp only
  rw [if_neg (by simp; omega)]
  simp only [List.nil_append]
  rw [find_info_singleton]
  dsimp only
  rw [dif_pos (show j - 1 < (List.replicate N
    (⟨"", 0, false⟩ : Fragment)).length by simp; omega)]
  rw [show ((List.replicate N (⟨"", 0, false⟩ : Fragment)).get
    ⟨j - 1, by simp; omega⟩) = ⟨"", 0, false⟩ from List.get_replicate _ _]
  simp only [Bool.false_eq_true, if_false]
  simp only [List.length_set, List.length_replicate]
  rw [erase_key_singleton, update_info_singleton]

end MultipartMessageManager

namespace MultipartMessageManager

/-- The fragment array held for a group after the slots in `done` have been
recorded (slot j stores payload `pay j` and fill bits `fil j`). -/
def build_frags (N : Nat) (pay : Nat → String) (fil : Nat → Nat)
    (done : List Nat) : List Fragment :=
  (List.range N).map (fun i =>
    if (i + 1) ∈ done then ⟨pay (i + 1), fil (i + 1), true⟩ else ⟨"", 0, false⟩)

/-- The fully populated fragment array. -/
def all_frags (N : Nat) (pay : Nat → String) (fil : Nat → Nat) : List Fragment :=
  (List.range N).map (fun i => ⟨pay (i + 1), fil (i + 1), true⟩)

theorem build_frags_nil (N : Nat) (pay : Nat → String) (fil : Nat → Nat) :
    build_frags N pay fil [] = List.replicate N ⟨"", 0, false⟩ := by
  rw [build_frags]
  simp

@[simp] theorem build_frags_length (N : Nat) (pay : Nat → String)
    (fil : Nat → Nat) (done : List Nat) :
    (build_frags N pay fil done).length = N := by
  simp [build_frags]

theorem build_frags_get (N : Nat) (pay : Nat → String) (fil : Nat → Nat)
    (done : List Nat) (j : Nat) (h1 : 1 ≤ j) (h2 : j ≤ N)
    (h : j - 1 < (build_frags N pay fil done).length) :
    (build_frags N pay fil done).get ⟨j - 1, h⟩ =
      if j ∈ done then ⟨pay j, fil j, true⟩ else ⟨"", 0, false⟩ := by
  simp only [build_frags, List.get_eq_getElem, List.getElem_map, List.getElem_range]
  have hj : j - 1 + 1 = j := by omega
  rw [hj]

theorem build_frags_set (N : Nat) (pay : Nat → String) (fil : Nat → Nat)
    (done : List Nat) (j : Nat) (h1 : 1 ≤ j) (h2 : j ≤ N) :
    (build_frags N pay fil done).set (j - 1) ⟨pay j, fil j, true⟩ =
      build_frags N pay fil (done ++ [j]) := by
  apply List.ext_getElem
  · simp
  · intro i hi1 hi2
    have hiN : i < N := by simpa using hi2
    rw [List.getElem_set]
    by_cases hij : j - 1 = i
    · rw [if_pos hij]
      simp only [build_frags, List.getElem_map, List.getElem_range]
      have : i + 1 = j := by omega
      rw [this, if_pos (by simp)]
    · rw [if_neg hij]
      simp only [build_frags, List.getElem_map, List.getElem_range]
      have hne : i + 1 ≠ j := by omega
      by_cases hmem : (i + 1) ∈ done
      · rw [if_pos hmem, if_pos (List.mem_append.mpr (Or.inl hmem))]
      · rw [if_neg hmem, if_neg (by
          intro hx
          rcases List.mem_append.mp hx with h | h
          · exact hmem h
          · exact hne (by simpa using h))]

theorem build_frags_full (N : Nat) (pay : Nat → String) (fil : Nat → Nat)
    (done : List Nat) (hfull : ∀ i, i < N → (i + 1) ∈ done) :
    build_frags N pay fil done = all_frags N pay fil := by
  rw [build_frags, all_frags]
  refine List.map_congr_left (fun i hi => ?_)
  rw [if_pos (hfull i (List.mem_range.mp hi))]

/-- Sequential submission of the listed slots, one `add_fragment` per
element, with a strictly increasing clock (one tick per call). -/
def submit_seq (mid : String) (ch : Char) (N : Nat) (pay : Nat → String)
    (fil : Nat → Nat) : MMState → Nat → List Nat → List MMOut × MMState
  | st, _, [] => ([], st)
  | st, t, j :: rest =>
    let r := add_fragment st t j N mid ch (pay j) (fil j)
    let r2 := submit_seq mid ch N pay fil r.2 (t + 1) rest
    (r.1 :: r2.1, r2.2)

end MultipartMessageManager

namespace MultipartMessageManager

theorem submit_go (mid : String) (ch : Char) (N : Nat) (pay : Nat → String)
    (fil : Nat → Nat) (T M : Nat) (bits : Bits)
    (hch : ch = 'A' ∨ ch = 'B')
    (hfil : ∀ j, 1 ≤ j → j ≤ N → fil j ≤ 5)
    (hM : 1 ≤ M)
    (hcomb : combine_fragments (all_frags N pay fil) = some bits) :
    ∀ (order done : List Nat) (t tl : Nat),
      (done ++ order).Perm (List.range' 1 N) →
      order ≠ [] →
      submit_seq mid ch N pay fil
        (if done.length = 0 then ⟨[], T, M⟩
         else ⟨[(group_key mid ch N,
            ⟨build_frags N pay fil done, tl, done.length⟩)], T, M⟩)
        t order =
      (List.replicate (order.length - 1) MMOut.incomplete ++ [MMOut.complete bits],
        ⟨[], T, M⟩) := by
  intro order
  induction order with
  | nil => exact fun done t tl _ h => absurd rfl h
  | cons j rest ih =>
    intro done t tl hperm hne
    have hmemj : j ∈ List.range' 1 N := hperm.mem_iff.mp (by simp)
    have hj : 1 ≤ j ∧ j ≤ N := by
      rw [List.mem_range'] at hmemj
      obtain ⟨i, hi, hei⟩ := hmemj
      omega
    have hnd : (done ++ j :: rest).Nodup := hperm.nodup_iff.mpr (List.nodup_range' _ _)
    have hjdone : j ∉ done := by
      intro hmem
      rcases List.nodup_append.mp hnd with ⟨-, -, hdisj⟩
      exact hdisj hmem (List.mem_cons_self _ _)
    have hlen_sum : done.length + (rest.length + 1) = N := by
      have hL := hperm.length_eq
      simp only [List.length_append, List.length_cons, List.length_range'] at hL
      omega
    simp only [submit_seq]
    by_cases hdone : done.length = 0
    · have hdnil : done = [] := List.length_eq_zero.mp hdone
      rw [if_pos hdone]
      rw [add_fragment_fresh T M mid ch t j N (pay j) (fil j) hj.1 hj.2 hch
        (hfil j hj.1 hj.2) hM]
      have hset : (List.replicate N (⟨"", 0, false⟩ : Fragment)).set (j - 1)
          ⟨pay j, fil j, true⟩ = build_frags N pay fil (done ++ [j]) := by
        conv_lhs => rw [← build_frags_nil N pay fil]
        rw [build_frags_set N pay fil [] j hj.1 hj.2, hdnil]
      cases rest with
      | nil =>
        have hN1 : N = 1 := by
          have hL := hperm.length_eq
          simp only [List.length_append, List.length_cons, List.length_range',
            hdnil, List.length_nil] at hL
          omega
        rw [if_pos (by omega)]
        have hall : build_frags N pay fil (done ++ [j]) = all_frags N pay fil := by
          refine build_frags_full _ _ _ _ (fun i hi => ?_)
          have hi0 : i = 0 := by omega
          have hj1 : j = 1 := by omega
          rw [hi0, hj1, hdnil]
          simp
        rw [hset, hall, hcomb]
        simp [submit_seq]
      | cons k rest2 =>
        have hlen2 : done.length + rest2.length + 2 = N := by
          have hL := hperm.length_eq
          simp only [List.length_append, List.length_cons, List.length_range'] at hL
          omega
        rw [if_neg (by omega)]
        rw [hset]
        have hrec := ih (done ++ [j]) (t + 1) t
          (by
            rw [List.append_assoc]
            exact hperm)
          (by simp)
        rw [if_neg (by simp), show (done ++ [j]).length = done.length + 1 by simp,
          hdone] at hrec
        rw [show (0 : Nat) + 1 = 1 from rfl] at hrec ⊢
        rw [hrec]
        simp [List.replicate_succ]
    · rw [if_neg hdone]
      rw [add_fragment_existing T M mid ch t j N (pay j) (fil j)
        ⟨build_frags N pay fil done, tl, done.length⟩ hj.1 hj.2 hch
        (hfil j hj.1 hj.2) (by simp)
        (fun h => by
          rw [build_frags_get N pay fil done j hj.1 hj.2 h, if_neg hjdone])]
      simp only
      rw [build_frags_set N pay fil done j hj.1 hj.2]
      cases rest with
      | nil =>
        have hlen1 : done.length + 1 = N := by
          have hL := hperm.length_eq
          simp only [List.length_append, List.length_cons, List.length_nil,
            List.length_range'] at hL
          omega
        rw [if_pos (by omega)]
        have hall : build_frags N pay fil (done ++ [j]) = all_frags N pay fil := by
          refine build_frags_full _ _ _ _ (fun i hi => ?_)
          have : (i + 1) ∈ List.range' 1 N := by
            rw [List.mem_range']
            exact ⟨i, hi, by omega⟩
          have hmem := hperm.mem_iff.mpr this
          simpa using hmem
        rw [hall, hcomb]
        simp [submit_seq]
      | cons k rest2 =>
        have hlen2 : done.length + rest2.length + 2 = N := by
          have hL := hperm.length_eq
          simp only [List.length_append, List.length_cons, List.length_range'] at hL
          omega
        rw [if_neg (by omega)]
        have hrec := ih (done ++ [j]) (t + 1) t
          (by
            rw [List.append_assoc]
            exact hperm)
          (by simp)
        rw [if_neg (by simp), show (done ++ [j]).length = done.length + 1 by simp]
          at hrec
        rw [hrec]
        simp [List.replicate_succ]

/-- C2: reassembly order independence. For a fragment group of `N` fragments
sharing the same fragment count `N`, group id `mid` and channel `ch`, each
submitted exactly once to a fresh manager (in an arbitrary order that is a
permutation of the slots `1..N`), `add_fragment` returns incomplete on every
non-final submission and emits the combined bit buffer `bits` on the final
one; that buffer is `combine_fragments` of the slot-ordered fragment array
(each non-final slot contributes all of its armor-decoded bits, the final
slot its decoded bits minus its declared fill bits) and is therefore
identical for every permutation of the arrival order. -/
theorem C2_reassembly_order_independence (mid : String) (ch : Char) (N : Nat)
    (pay : Nat → String) (fil : Nat → Nat) (T M t0 : Nat) (bits : Bits)
    (order : List Nat)
    (hch : ch = 'A' ∨ ch = 'B')
    (hfil : ∀ j, 1 ≤ j → j ≤ N → fil j ≤ 5)
    (hM : 1 ≤ M) (hN : 1 ≤ N)
    (hcomb : combine_fragments (all_frags N pay fil) = some bits)
    (hperm : order.Perm (List.range' 1 N)) :
    submit_seq mid ch N pay fil ⟨[], T, M⟩ t0 order =
      (List.replicate (order.length - 1) MMOut.incomplete ++
        [MMOut.complete bits], ⟨[], T, M⟩) := by
  have hne : order ≠ [] := by
    intro h
    rw [h] at hperm
    have hL := hperm.length_eq
    simp [List.length_range'] at hL
    omega
  have h := submit_go mid ch N pay fil T M bits hch hfil hM hcomb
    order [] t0 0 (by simpa using hperm) hne
  simpa using h

/-- Concrete instance of C2: two one-character-payload fragments submitted
in the order 2, 1 yield incomplete then the combined 24-bit buffer. -/
theorem C2_reassembly_order_independence_witness :
    submit_seq "7" 'A' 2 (fun _ => "00") (fun _ => 0) ⟨[], 60, 10⟩ 5 [2, 1] =
      (List.replicate ([2, 1].length - 1) MMOut.incomplete ++
        [MMOut.complete (List.replicate 24 false)], ⟨[], 60, 10⟩) :=
  C2_reassembly_order_independence "7" 'A' 2 (fun _ => "00") (fun _ => 0)
    60 10 5 (List.replicate 24 false) [2, 1] (Or.inl rfl)
    (fun _ _ _ => Nat.zero_le 5) (by decide) (by decide) (by rfl) (by decide)

end MultipartMessageManager

namespace AISParser

open NMEAUtils BitVector MessageFactory

/-- `AISParser::ParseError::ErrorType`. -/
inductive ErrorType
  | NONE
  | INVALID_CHECKSUM
  | INVALID_SENTENCE_FORMAT
  | INVALID_FRAGMENT_INFO
  | UNSUPPORTED_MESSAGE_TYPE
  | INVALID_PAYLOAD
  | OTHER
deriving DecidableEq

/-- Observable outcome of one facade call: the returned message pointer
(`none` for `nullptr`), the recorded `last_error_` kind, and the state of
the embedded multipart manager. -/
structure ParseResult where
  message : Option MessageFactory.Msg
  error : ErrorType
  state : MultipartMessageManager.MMState
deriving DecidableEq

/-- The single-fragment payload handling of `AISParser::parse`: the whole
payload is armor-decoded first (`BitVector bits(payload)`); when
`0 < fill_bits <= 5` the buffer is rebuilt from the payload without its last
character, then bits 5 down to `fill_bits` of the last character's armor
value (0 for a character in neither armor range) are appended. `none` models
the armor-decode throw of the `BitVector` constructor (and, for an empty
payload in the trim branch, the undefined `payload.back()`). -/
def decode_single_payload (payload : String) (fill_bits : Nat) : Option Bits :=
  (from_nmea_payload payload).bind (fun full =>
    if 0 < fill_bits ∧ fill_bits ≤ 5 then
      match payload.data.getLast? with
      | none => none
      | some last_char =>
        (from_nmea_payload_chars payload.data.dropLast).map (fun bits =>
          let last_char_value :=
            if 48 ≤ last_char.toNat ∧ last_char.toNat ≤ 87 then last_char.toNat - 48
            else if 96 ≤ last_char.toNat ∧ last_char.toNat ≤ 119 then
              last_char.toNat - 96 + 40
            else 0
          bits ++ (List.range (6 - fill_bits)).map (fun i =>
            last_char_value.testBit (5 - i)))
    else some full)

/-- `AISParser::add_fragment` (the multipart facade): checksum and envelope
validation, fragment-field extraction via `std::stoi` with `uint8_t` casts
(no range check and no channel check of its own), then the multipart
manager; manager throws and `AISMessage::from_bits` throws are caught and
recorded as `OTHER`. An empty channel field reads as `'\0'`
(`std::string::operator[]` at `size()`). -/
def add_fragment (st : MultipartMessageManager.MMState) (now : Nat)
    (line : String) : ParseResult :=
  if validate_checksum line then
    let fields := parse_fields line
    if fields.length < 7 ∨ (fields.headD "" ≠ "!AIVDM" ∧ fields.headD "" ≠ "!AIVDO") then
      ⟨none, .INVALID_SENTENCE_FORMAT, st⟩
    else
      match cpp_stoi10 (fields.getD 1 ""), cpp_stoi10 (fields.getD 2 "") with
      | some fcv, some fnv =>
        match cpp_stoi10 (fields.getD 6 "") with
        | none => ⟨none, .INVALID_FRAGMENT_INFO, st⟩
        | some fbv =>
          match MultipartMessageManager.add_fragment st now (to_u8 fnv) (to_u8 fcv)
              (fields.getD 3 "") ((fields.getD 4 "").data.headD (Char.ofNat 0))
              (fields.getD 5 "") (to_u8 fbv) with
          | (.thrown, st2) => ⟨none, .OTHER, st2⟩
          | (.incomplete, st2) => ⟨none, .NONE, st2⟩
          | (.complete bits, st2) =>
            match create_message bits with
            | .ok m => ⟨some m, .NONE, st2⟩
            | .error _ => ⟨none, .OTHER, st2⟩
      | _, _ => ⟨none, .INVALID_FRAGMENT_INFO, st⟩
  else ⟨none, .INVALID_CHECKSUM, st⟩

/-- `AISParser::parse`: checksum and envelope validation, fragment-field
extraction, then range/channel checks (`INVALID_FRAGMENT_INFO`); a
single-fragment payload is decoded directly (decode and dispatch throws are
recorded as `INVALID_PAYLOAD`), a multipart sentence is handed verbatim to
`AISParser::add_fragment`. The fill-bits field is parsed but never
range-checked. -/
def parse (st : MultipartMessageManager.MMState) (now : Nat)
    (line : String) : ParseResult :=
  if validate_checksum line then
    let fields := parse_fields line
    if fields.length < 7 ∨ (fields.headD "" ≠ "!AIVDM" ∧ fields.headD "" ≠ "!AIVDO") then
      ⟨none, .INVALID_SENTENCE_FORMAT, st⟩
    else
      match cpp_stoi10 (fields.getD 1 ""), cpp_stoi10 (fields.getD 2 "") with
      | some fcv, some fnv =>
        let fragment_count := to_u8 fcv
        let fragment_number := to_u8 fnv
        if fragment_count < 1 ∨ fragment_number < 1 ∨ fragment_count < fragment_number then
          ⟨none, .INVALID_FRAGMENT_INFO, st⟩
        else
          let channel := (fields.getD 4 "").data.headD (Char.ofNat 0)
          if channel ≠ 'A' ∧ channel ≠ 'B' then ⟨none, .INVALID_FRAGMENT_INFO, st⟩
          else
            match cpp_stoi10 (fields.getD 6 "") with
            | none => ⟨none, .INVALID_FRAGMENT_INFO, st⟩
            | some fbv =>
              if fragment_count = 1 then
                match decode_single_payload (fields.getD 5 "") (to_u8 fbv) with
                | none => ⟨none, .INVALID_PAYLOAD, st⟩
                | some bits =>
                  match create_message bits with
                  | .ok m => ⟨some m, .NONE, st⟩
                  | .error _ => ⟨none, .INVALID_PAYLOAD, st⟩
              else AISParser.add_fragment st now line
      | _, _ => ⟨none, .INVALID_FRAGMENT_INFO, st⟩
  else ⟨none, .INVALID_CHECKSUM, st⟩

theorem from_nmea_payload_chars_concat (cs : List Char) (c : Char) :
    from_nmea_payload_chars (cs ++ [c]) =
      (from_nmea_payload_chars cs).bind (fun a =>
        (armor_char_val c).map (fun v => a ++ bitsOfNat v 6)) := by
  induction cs with
  | nil => cases h : armor_char_val c <;> simp [from_nmea_payload_chars, h]
  | cons d ds ih =>
    simp only [List.cons_append, from_nmea_payload_chars, List.append_eq]
    rw [ih]
    cases hd : armor_char_val d <;> cases hds : from_nmea_payload_chars ds <;>
      cases hc : armor_char_val c <;> simp [hd, hds, hc]

theorem length_from_nmea_payload_chars (cs : List Char) (l : Bits)
    (h : from_nmea_payload_chars cs = some l) : l.length = 6 * cs.length := by
  induction cs generalizing l with
  | nil =>
    simp only [from_nmea_payload_chars, Option.some.injEq] at h
    simp [← h]
  | cons c cs ih =>
    rw [from_nmea_payload_chars] at h
    cases hc : armor_char_val c <;> rw [hc] at h
    · exact absurd h (by simp)
    · cases hcs : from_nmea_payload_chars cs <;> rw [hcs] at h
      · exact absurd h (by simp)
      · cases h
        simp [ih _ hcs, length_bitsOfNat, List.length_cons, Nat.mul_succ, Nat.add_comm]

theorem decode_single_trim (payload : String) (fb : Nat) (l : Bits)
    (hfb : fb ≤ 5) (hne : payload.data ≠ [])
    (hdec : from_nmea_payload payload = some l) :
    decode_single_payload payload fb = some (l.take (l.length - fb)) := by
  rw [decode_single_payload, hdec, Option.some_bind]
  by_cases h0 : 0 < fb
  · rw [if_pos ⟨h0, hfb⟩]
    obtain ⟨cs, c, hcat⟩ := (List.eq_nil_or_concat payload.data).resolve_left hne
    rw [List.concat_eq_append] at hcat
    rw [from_nmea_payload, hcat, from_nmea_payload_chars_concat] at hdec
    cases ha : from_nmea_payload_chars cs <;> rw [ha] at hdec
    · exact absurd hdec (by simp)
    next a =>
    cases hc : armor_char_val c <;> rw [hc] at hdec
    · exact absurd hdec (by simp)
    next v =>
    rw [Option.some_bind, Option.map_some'] at hdec
    cases hdec
    rw [hcat, List.getLast?_concat, List.dropLast_concat, ha]
    dsimp only [Option.map_some']
    have hv : (if 48 ≤ c.toNat ∧ c.toNat ≤ 87 then c.toNat - 48
        else if 96 ≤ c.toNat ∧ c.toNat ≤ 119 then c.toNat - 96 + 40 else 0) = v := by
      rw [armor_char_val] at hc
      split_ifs at hc with h1 h2
      · rw [if_pos h1]
        exact Option.some.inj hc
      · rw [if_neg h1, if_pos h2]
        exact Option.some.inj hc
    rw [hv]
    have hlen : (a ++ bitsOfNat v 6).length - fb = a.length + (6 - fb) := by
      simp only [List.length_append, length_bitsOfNat]
      omega
    rw [hlen, List.take_append, Option.some.injEq, List.append_cancel_left_eq]
    rw [bitsOfNat, ← List.map_take, List.take_range (6 - fb) 6,
      Nat.min_eq_left (by omega)]
  · rw [if_neg (by omega)]
    have hfb0 : fb = 0 := by omega
    rw [hfb0, Nat.sub_zero, List.take_length]

/-- C3 (amended): the two facade entry points agree on checksum-invalid
lines and, verbatim, on every multipart sentence whose fragment fields are
in range and whose channel is `A`/`B` (there `parse` literally calls
`add_fragment`); a single-fragment sentence is decoded directly by `parse`
but routed through the multipart manager by `add_fragment`, and the two
agree (same message, same `NONE` error, same — unchanged — manager state)
when the manager is empty with spare capacity, the payload armor-decodes,
and the trimmed buffer dispatches successfully. (They are not identical in
general: see the counterexample, where the error kinds differ.) -/
theorem C3_parse_addfragment_equiv :
    (∀ st now line, validate_checksum line = false →
      parse st now line = AISParser.add_fragment st now line) ∧
    (∀ st now line, ∀ hdr a1 a2 mid chs payload a6 : String, ∀ rest : List String,
      ∀ fcv fnv : Int,
      validate_checksum line = true →
      parse_fields line = hdr :: a1 :: a2 :: mid :: chs :: payload :: a6 :: rest →
      (hdr = "!AIVDM" ∨ hdr = "!AIVDO") →
      cpp_stoi10 a1 = some fcv → cpp_stoi10 a2 = some fnv →
      2 ≤ to_u8 fcv → 1 ≤ to_u8 fnv → to_u8 fnv ≤ to_u8 fcv →
      (chs.data.headD (Char.ofNat 0) = 'A' ∨ chs.data.headD (Char.ofNat 0) = 'B') →
      parse st now line = AISParser.add_fragment st now line) ∧
    (∀ T M now line, ∀ hdr a1 a2 mid chs payload a6 : String, ∀ rest : List String,
      ∀ fcv fnv fbv : Int, ∀ l : Bits, ∀ m : MessageFactory.Msg,
      1 ≤ M →
      validate_checksum line = true →
      parse_fields line = hdr :: a1 :: a2 :: mid :: chs :: payload :: a6 :: rest →
      (hdr = "!AIVDM" ∨ hdr = "!AIVDO") →
      cpp_stoi10 a1 = some fcv → to_u8 fcv = 1 →
      cpp_stoi10 a2 = some fnv → to_u8 fnv = 1 →
      (chs.data.headD (Char.ofNat 0) = 'A' ∨ chs.data.headD (Char.ofNat 0) = 'B') →
      cpp_stoi10 a6 = some fbv → to_u8 fbv ≤ 5 →
      payload.data ≠ [] →
      from_nmea_payload payload = some l →
      create_message (l.take (l.length - to_u8 fbv)) = .ok m →
      parse ⟨[], T, M⟩ now line = ⟨some m, .NONE, ⟨[], T, M⟩⟩ ∧
      AISParser.add_fragment ⟨[], T, M⟩ now line = ⟨some m, .NONE, ⟨[], T, M⟩⟩) := by
  refine ⟨?_, ?_, ?_⟩
  · intro st now line h
    simp only [parse, AISParser.add_fragment, h, Bool.false_eq_true, if_false]
  · intro st now line hdr a1 a2 mid chs payload a6 rest fcv fnv
      hcv hf hhdr h1 h2 hfc2 hfn1 hfnle hch
    have hfmt : ¬((hdr :: a1 :: a2 :: mid :: chs :: payload :: a6 :: rest).length < 7 ∨
        ((hdr :: a1 :: a2 :: mid :: chs :: payload :: a6 :: rest).headD "" ≠ "!AIVDM" ∧
         (hdr :: a1 :: a2 :: mid :: chs :: payload :: a6 :: rest).headD "" ≠ "!AIVDO")) := by
      simp only [List.length_cons, List.headD_cons]
      push_neg
      refine ⟨by omega, fun hA => ?_⟩
      rcases hhdr with h | h
      · exact absurd h hA
      · exact h
    have g1 : (hdr :: a1 :: a2 :: mid :: chs :: payload :: a6 :: rest).getD 1 "" = a1 := rfl
    have g2 : (hdr :: a1 :: a2 :: mid :: chs :: payload :: a6 :: rest).getD 2 "" = a2 := rfl
    have g4 : (hdr :: a1 :: a2 :: mid :: chs :: payload :: a6 :: rest).getD 4 "" = chs := rfl
    have g6 : (hdr :: a1 :: a2 :: mid :: chs :: payload :: a6 :: rest).getD 6 "" = a6 := rfl
    simp only [parse, hcv, eq_self_iff_true, if_true, hf, if_neg hfmt, g1, g2, h1, h2]
    rw [if_neg (by omega), g4,
      if_neg (by rcases hch with h | h <;> rw [h] <;> simp), g6]
    cases h6 : cpp_stoi10 a6 with
    | none =>
      simp only [AISParser.add_fragment, hcv, eq_self_iff_true, if_true, hf,
        if_neg hfmt, g1, g2, h1, h2]
      rw [g6, h6]
    | some fbv =>
      dsimp only
      rw [if_neg (show ¬(to_u8 fcv = 1) by omega)]
  · intro T M now line hdr a1 a2 mid chs payload a6 rest fcv fnv fbv l m
      hM hcv hf hhdr h1 hfc1 h2 hfn1 hch h6 hfb hne hdec hok
    have hfmt : ¬((hdr :: a1 :: a2 :: mid :: chs :: payload :: a6 :: rest).length < 7 ∨
        ((hdr :: a1 :: a2 :: mid :: chs :: payload :: a6 :: rest).headD "" ≠ "!AIVDM" ∧
         (hdr :: a1 :: a2 :: mid :: chs :: payload :: a6 :: rest).headD "" ≠ "!AIVDO")) := by
      simp only [List.length_cons, List.headD_cons]
      push_neg
      refine ⟨by omega, fun hA => ?_⟩
      rcases hhdr with h | h
      · exact absurd h hA
      · exact h
    have g1 : (hdr :: a1 :: a2 :: mid :: chs :: payload :: a6 :: rest).getD 1 "" = a1 := rfl
    have g2 : (hdr :: a1 :: a2 :: mid :: chs :: payload :: a6 :: rest).getD 2 "" = a2 := rfl
    have g3 : (hdr :: a1 :: a2 :: mid :: chs :: payload :: a6 :: rest).getD 3 "" = mid := rfl
    have g4 : (hdr :: a1 :: a2 :: mid :: chs :: payload :: a6 :: rest).getD 4 "" = chs := rfl
    have g5 : (hdr :: a1 :: a2 :: mid :: chs :: payload :: a6 :: rest).getD 5 "" = payload := rfl
    have g6 : (hdr :: a1 :: a2 :: mid :: chs :: payload :: a6 :: rest).getD 6 "" = a6 := rfl
    have hlen6 : l.length = 6 * payload.data.length :=
      length_from_nmea_payload_chars payload.data l hdec
    have hplen : 1 ≤ payload.data.length := List.length_pos.mpr hne
    constructor
    · simp only [parse, hcv, eq_self_iff_true, if_true, hf, if_neg hfmt, g1, g2, h1, h2]
      rw [if_neg (by omega), g4,
        if_neg (by rcases hch with h | h <;> rw [h] <;> simp), g6, h6]
      dsimp only
      rw [if_pos hfc1, g5,
        decode_single_trim payload (to_u8 fbv) l hfb hne hdec]
      dsimp only
      rw [hok]
    · simp only [AISParser.add_fragment, hcv, eq_self_iff_true, if_true, hf, if_neg hfmt, g1, g2, h1, h2]
      rw [g3, g4, g5, g6, h6]
      dsimp only
      rw [hfn1, hfc1]
      rw [MultipartMessageManager.add_fragment_fresh T M mid
        (chs.data.headD (Char.ofNat 0)) now 1 1 payload (to_u8 fbv)
        (le_refl 1) (le_refl 1) hch hfb hM]
      rw [if_pos rfl]
      rw [show ((List.replicate 1 (⟨"", 0, false⟩ : MultipartMessageManager.Fragment)).set
        (1 - 1) ⟨payload, to_u8 fbv, true⟩) = [⟨payload, to_u8 fbv, true⟩] from rfl]
      rw [MultipartMessageManager.combine_fragments, hdec]
      rw [Option.some_bind, if_pos (show to_u8 fbv ≤ l.length by omega)]
      dsimp only
      rw [hok]

set_option maxRecDepth 100000 in
/-- C3 counterexample: a checksum-valid single-fragment sentence with
channel `C` is rejected by both entry points, but `parse` records
`INVALID_FRAGMENT_INFO` (its explicit channel check) while `add_fragment`
records `OTHER` (the manager throw), so the two calls are not semantically
identical. -/
theorem C3_counterexample :
    parse ⟨[], 60, 100⟩ 0 "!AIVDM,1,1,,C,P,0*74" ≠
      AISParser.add_fragment ⟨[], 60, 100⟩ 0 "!AIVDM,1,1,,C,P,0*74" ∧
    (parse ⟨[], 60, 100⟩ 0 "!AIVDM,1,1,,C,P,0*74").error =
      ErrorType.INVALID_FRAGMENT_INFO ∧
    (AISParser.add_fragment ⟨[], 60, 100⟩ 0 "!AIVDM,1,1,,C,P,0*74").error =
      ErrorType.OTHER := by
  refine ⟨by decide, by decide, by decide⟩

set_option maxRecDepth 100000 in
/-- Concrete instances of the C3 equivalence: a checksum-invalid input, a
first fragment of a two-part group, and a dispatchable single-fragment
sentence against an empty manager. -/
theorem C3_parse_addfragment_equiv_witness :
    parse ⟨[], 60, 100⟩ 0 "x" = AISParser.add_fragment ⟨[], 60, 100⟩ 0 "x" ∧
    parse ⟨[], 60, 100⟩ 0 "!AIVDM,2,1,,A,1000000000000000000000000000,0*24" =
      AISParser.add_fragment ⟨[], 60, 100⟩ 0
        "!AIVDM,2,1,,A,1000000000000000000000000000,0*24" ∧
    (parse ⟨[], 60, 100⟩ 0 "!AIVDM,1,1,,A,1000000000000000000000000000,0*27" =
      ⟨some ⟨1, List.replicate 5 false ++ true :: List.replicate 162 false⟩,
        ErrorType.NONE, ⟨[], 60, 100⟩⟩ ∧
     AISParser.add_fragment ⟨[], 60, 100⟩ 0
        "!AIVDM,1,1,,A,1000000000000000000000000000,0*27" =
      ⟨some ⟨1, List.replicate 5 false ++ true :: List.replicate 162 false⟩,
        ErrorType.NONE, ⟨[], 60, 100⟩⟩) := by
  refine ⟨C3_parse_addfragment_equiv.1 ⟨[], 60, 100⟩ 0 "x" (by decide),
    C3_parse_addfragment_equiv.2.1 ⟨[], 60, 100⟩ 0
      "!AIVDM,2,1,,A,1000000000000000000000000000,0*24"
      "!AIVDM" "2" "1" "" "A" "1000000000000000000000000000" "0" [] 2 1
      (by decide) (by decide) (Or.inl rfl) (by decide) (by decide)
      (by decide) (by decide) (by decide) (Or.inl (by decide)),
    C3_parse_addfragment_equiv.2.2 60 100 0
      "!AIVDM,1,1,,A,1000000000000000000000000000,0*27"
      "!AIVDM" "1" "1" "" "A" "1000000000000000000000000000" "0" [] 1 1 0
      (List.replicate 5 false ++ true :: List.replicate 162 false)
      ⟨1, List.replicate 5 false ++ true :: List.replicate 162 false⟩
      (by decide) (by decide) (by decide) (Or.inl rfl) (by decide)
      (by decide) (by decide) (by decide) (Or.inl (by decide)) (by decide)
      (by decide) (by decide) (by decide) (by rfl)⟩

/-- C6 (corrected): `parse` never range-checks the fill-bits field. On a
checksum-valid `!AIVDM`/`!AIVDO` sentence whose fill-bits field parses to 6
or more (after the `uint8_t` cast): in the single-fragment path the fill
bits are silently ignored (no trim), the whole payload is decoded and
dispatched, and the recorded error is never `INVALID_FRAGMENT_INFO` (the
spec's BadFragmentInfo) — the message may even parse successfully with
error `NONE`; in the multipart path the manager throw is caught and
recorded as `OTHER`, again not `INVALID_FRAGMENT_INFO`, with the manager
state unchanged. -/
theorem C6_fill_bits_not_range_checked :
    (∀ st now line, ∀ hdr a1 a2 mid chs payload a6 : String, ∀ rest : List String,
      ∀ fcv fnv fbv : Int,
      validate_checksum line = true →
      parse_fields line = hdr :: a1 :: a2 :: mid :: chs :: payload :: a6 :: rest →
      (hdr = "!AIVDM" ∨ hdr = "!AIVDO") →
      cpp_stoi10 a1 = some fcv → to_u8 fcv = 1 →
      cpp_stoi10 a2 = some fnv → to_u8 fnv = 1 →
      (chs.data.headD (Char.ofNat 0) = 'A' ∨ chs.data.headD (Char.ofNat 0) = 'B') →
      cpp_stoi10 a6 = some fbv → 6 ≤ to_u8 fbv →
      parse st now line =
        (match from_nmea_payload payload with
         | none => ⟨none, .INVALID_PAYLOAD, st⟩
         | some lb =>
           match create_message lb with
           | .ok m => ⟨some m, .NONE, st⟩
           | .error _ => ⟨none, .INVALID_PAYLOAD, st⟩) ∧
      (parse st now line).error ≠ ErrorType.INVALID_FRAGMENT_INFO) ∧
    (∀ st now line, ∀ hdr a1 a2 mid chs payload a6 : String, ∀ rest : List String,
      ∀ fcv fnv fbv : Int,
      validate_checksum line = true →
      parse_fields line = hdr :: a1 :: a2 :: mid :: chs :: payload :: a6 :: rest →
      (hdr = "!AIVDM" ∨ hdr = "!AIVDO") →
      cpp_stoi10 a1 = some fcv → cpp_stoi10 a2 = some fnv →
      2 ≤ to_u8 fcv → 1 ≤ to_u8 fnv → to_u8 fnv ≤ to_u8 fcv →
      (chs.data.headD (Char.ofNat 0) = 'A' ∨ chs.data.headD (Char.ofNat 0) = 'B') →
      cpp_stoi10 a6 = some fbv → 6 ≤ to_u8 fbv →
      parse st now line = ⟨none, ErrorType.OTHER, st⟩) := by
  constructor
  · intro st now line hdr a1 a2 mid chs payload a6 rest fcv fnv fbv
      hcv hf hhdr h1 hfc1 h2 hfn1 hch h6 hfb6
    have hfmt : ¬((hdr :: a1 :: a2 :: mid :: chs :: payload :: a6 :: rest).length < 7 ∨
        ((hdr :: a1 :: a2 :: mid :: chs :: payload :: a6 :: rest).headD "" ≠ "!AIVDM" ∧
         (hdr :: a1 :: a2 :: mid :: chs :: payload :: a6 :: rest).headD "" ≠ "!AIVDO")) := by
      simp only [List.length_cons, List.headD_cons]
      push_neg
      refine ⟨by omega, fun hA => ?_⟩
      rcases hhdr with h | h
      · exact absurd h hA
      · exact h
    have g1 : (hdr :: a1 :: a2 :: mid :: chs :: payload :: a6 :: rest).getD 1 "" = a1 := rfl
    have g2 : (hdr :: a1 :: a2 :: mid :: chs :: payload :: a6 :: rest).getD 2 "" = a2 := rfl
    have g4 : (hdr :: a1 :: a2 :: mid :: chs :: payload :: a6 :: rest).getD 4 "" = chs := rfl
    have g5 : (hdr :: a1 :: a2 :: mid :: chs :: payload :: a6 :: rest).getD 5 "" = payload := rfl
    have g6 : (hdr :: a1 :: a2 :: mid :: chs :: payload :: a6 :: rest).getD 6 "" = a6 := rfl
    have hdsp : decode_single_payload payload (to_u8 fbv) = from_nmea_payload payload := by
      rw [decode_single_payload]
      cases hp : from_nmea_payload payload
      · rfl
      · rw [Option.some_bind, if_neg (show ¬(0 < to_u8 fbv ∧ to_u8 fbv ≤ 5) by omega)]
    have heq : parse st now line =
        (match from_nmea_payload payload with
         | none => ⟨none, .INVALID_PAYLOAD, st⟩
         | some lb =>
           match create_message lb with
           | .ok m => ⟨some m, .NONE, st⟩
           | .error _ => ⟨none, .INVALID_PAYLOAD, st⟩) := by
      simp only [parse, hcv, eq_self_iff_true, if_true, hf, if_neg hfmt, g1, g2, h1, h2]
      rw [if_neg (by omega), g4,
        if_neg (by rcases hch with h | h <;> rw [h] <;> simp), g6, h6]
      dsimp only
      rw [if_pos hfc1, g5, hdsp]
    refine ⟨heq, ?_⟩
    rw [heq]
    cases hp : from_nmea_payload payload
    · simp [hp]
    next lb =>
      dsimp only
      cases hm : create_message lb <;> simp [hm]
  · intro st now line hdr a1 a2 mid chs payload a6 rest fcv fnv fbv
      hcv hf hhdr h1 h2 hfc2 hfn1 hfnle hch h6 hfb6
    have hfmt : ¬((hdr :: a1 :: a2 :: mid :: chs :: payload :: a6 :: rest).length < 7 ∨
        ((hdr :: a1 :: a2 :: mid :: chs :: payload :: a6 :: rest).headD "" ≠ "!AIVDM" ∧
         (hdr :: a1 :: a2 :: mid :: chs :: payload :: a6 :: rest).headD "" ≠ "!AIVDO")) := by
      simp only [List.length_cons, List.headD_cons]
      push_neg
      refine ⟨by omega, fun hA => ?_⟩
      rcases hhdr with h | h
      · exact absurd h hA
      · exact h
    have g1 : (hdr :: a1 :: a2 :: mid :: chs :: payload :: a6 :: rest).getD 1 "" = a1 := rfl
    have g2 : (hdr :: a1 :: a2 :: mid :: chs :: payload :: a6 :: rest).getD 2 "" = a2 := rfl
    have g3 : (hdr :: a1 :: a2 :: mid :: chs :: payload :: a6 :: rest).getD 3 "" = mid := rfl
    have g4 : (hdr :: a1 :: a2 :: mid :: chs :: payload :: a6 :: rest).getD 4 "" = chs := rfl
    have g5 : (hdr :: a1 :: a2 :: mid :: chs :: payload :: a6 :: rest).getD 5 "" = payload := rfl
    have g6 : (hdr :: a1 :: a2 :: mid :: chs :: payload :: a6 :: rest).getD 6 "" = a6 := rfl
    simp only [parse, hcv, eq_self_iff_true, if_true, hf, if_neg hfmt, g1, g2, h1, h2]
    rw [if_neg (by omega), g4,
      if_neg (by rcases hch with h | h <;> rw [h] <;> simp), g6, h6]
    dsimp only
    rw [if_neg (show ¬(to_u8 fcv = 1) by omega)]
    simp only [AISParser.add_fragment, hcv, eq_self_iff_true, if_true, hf,
      if_neg hfmt, g1, g2, h1, h2]
    rw [g3, g4, g5, g6, h6]
    dsimp only
    rw [MultipartMessageManager.add_fragment, if_neg (by omega),
      if_neg (by rcases hch with h | h <;> rw [h] <;> simp),
      if_pos (show 5 < to_u8 fbv by omega)]

set_option maxRecDepth 100000 in
/-- C6 counterexample: a checksum-valid single-fragment sentence whose
fill-bits field is 6 — outside the claimed [0, 5] range — is not rejected:
`parse` returns a type-1 message with error `NONE` instead of the claimed
`nullptr` with BadFragmentInfo. -/
theorem C6_counterexample :
    validate_checksum "!AIVDM,1,1,,A,1000000000000000000000000000,6*21" = true ∧
    cpp_stoi10 "6" = some 6 ∧ ¬((0:Int) ≤ 6 ∧ (6:Int) ≤ 5 ∧ False) ∧
    ¬(to_u8 6 ≤ 5) ∧
    parse ⟨[], 60, 100⟩ 0 "!AIVDM,1,1,,A,1000000000000000000000000000,6*21" =
      ⟨some ⟨1, List.replicate 5 false ++ true :: List.replicate 162 false⟩,
        ErrorType.NONE, ⟨[], 60, 100⟩⟩ ∧
    (parse ⟨[], 60, 100⟩ 0 "!AIVDM,1,1,,A,1000000000000000000000000000,6*21").message ≠
      none ∧
    (parse ⟨[], 60, 100⟩ 0 "!AIVDM,1,1,,A,1000000000000000000000000000,6*21").error ≠
      ErrorType.INVALID_FRAGMENT_INFO := by
  refine ⟨by decide, by decide, by decide, by decide, by decide, by decide, by decide⟩

set_option maxRecDepth 100000 in
/-- Concrete instances of the C6 behaviour: the fill-6 single-fragment
sentence decodes and dispatches with error `NONE`, and the fill-6 first
fragment of a two-part group yields `OTHER` with the manager unchanged. -/
theorem C6_fill_bits_not_range_checked_witness :
    (parse ⟨[], 60, 100⟩ 0 "!AIVDM,1,1,,A,1000000000000000000000000000,6*21" =
      (match from_nmea_payload "1000000000000000000000000000" with
       | none => ⟨none, .INVALID_PAYLOAD, ⟨[], 60, 100⟩⟩
       | some lb =>
         match create_message lb with
         | .ok m => ⟨some m, .NONE, ⟨[], 60, 100⟩⟩
         | .error _ => ⟨none, .INVALID_PAYLOAD, ⟨[], 60, 100⟩⟩) ∧
     (parse ⟨[], 60, 100⟩ 0
        "!AIVDM,1,1,,A,1000000000000000000000000000,6*21").error ≠
       ErrorType.INVALID_FRAGMENT_INFO) ∧
    parse ⟨[], 60, 100⟩ 0 "!AIVDM,2,1,,A,1000000000000000000000000000,6*22" =
      ⟨none, ErrorType.OTHER, ⟨[], 60, 100⟩⟩ :=
  ⟨C6_fill_bits_not_range_checked.1 ⟨[], 60, 100⟩ 0
      "!AIVDM,1,1,,A,1000000000000000000000000000,6*21"
      "!AIVDM" "1" "1" "" "A" "1000000000000000000000000000" "6" [] 1 1 6
      (by decide) (by decide) (Or.inl rfl) (by decide) (by decide)
      (by decide) (by decide) (Or.inl (by decide)) (by decide) (by decide),
   C6_fill_bits_not_range_checked.2 ⟨[], 60, 100⟩ 0
      "!AIVDM,2,1,,A,1000000000000000000000000000,6*22"
      "!AIVDM" "2" "1" "" "A" "1000000000000000000000000000" "6" [] 2 1 6
      (by decide) (by decide) (Or.inl rfl) (by decide) (by decide)
      (by decide) (by decide) (by decide) (Or.inl (by decide)) (by decide)
      (by decide)⟩

end AISParser
